import Mathlib

/-!
The program docker-tool: save, load and retag Docker images

A shallow embedding of `main.go`.  The program is a sequence of calls to the
Docker client library and to the operating system.  Every such call is
recorded, together with what it returned, as an `Event`; the outside world is
an oracle `World` that answers each call from the history of the calls made so
far.  An operation maps a world to a `Run`: the events in the order they were
issued, the text written to standard output, and how the process ended.

Go strings are sequences of code points (`Str`), byte streams are lists of
byte values (`Bytes`).
-/

namespace DockerTools

/-- A Go string, as its sequence of code points. -/
abbrev Str := List Char

/-- A byte stream or byte buffer. -/
abbrev Bytes := List Nat

/-! ## The Go library functions the program uses -/

/-- Go `strings.Contains(s, substr)`: `substr` occurs in `s`. -/
def Contains : Str → Str → Bool
  | [], substr => substr.isPrefixOf []
  | c :: t, substr => substr.isPrefixOf (c :: t) || Contains t substr

/-- The scan of `strings.Replace` for a non-empty `old`: `skip` counts the
characters of the current occurrence of `old` that are still to be dropped. -/
def replaceFrom (old new : Str) : Nat → Str → Str
  | _, [] => []
  | k + 1, _ :: t => replaceFrom old new k t
  | 0, c :: t =>
    if old.isPrefixOf (c :: t) then new ++ replaceFrom old new (old.length - 1) t
    else c :: replaceFrom old new 0 t

/-- Go `strings.Replace(s, old, new, -1)`: every non-overlapping occurrence of
`old`, leftmost first, is replaced by `new`; an empty `old` matches before
every code point and at the end of the string. -/
def Replace (s old new : Str) : Str :=
  if old = [] then new ++ s.flatMap (fun c => c :: new)
  else replaceFrom old new 0 s

/-- Go `strings.ReplaceAll(s, old, new)`, which is `Replace(s, old, new, -1)`. -/
def ReplaceAll (s old new : Str) : Str := Replace s old new

/-- The scan of `strings.Split` for a non-empty separator; the head of the
result is the piece being read. -/
def splitFrom (sep : Str) : Nat → Str → List Str
  | _, [] => [[]]
  | k + 1, _ :: t => splitFrom sep k t
  | 0, c :: t =>
    if sep.isPrefixOf (c :: t) then [] :: splitFrom sep (sep.length - 1) t
    else
      match splitFrom sep 0 t with
      | [] => [[c]]
      | p :: ps => (c :: p) :: ps

/-- Go `strings.Split(s, sep)`: the pieces of `s` between the occurrences of
`sep`; an empty `sep` splits after every code point. -/
def Split (s sep : Str) : List Str :=
  if sep = [] then s.map (fun c => [c])
  else splitFrom sep 0 s

/-! ## Data model -/

/-- The fields of the engine's image summary that the program reads. -/
structure Image where
  ID : Str
  RepoTags : List Str
deriving DecidableEq

/-- The error of an `io.Reader.Read`: none, end of stream, or a failure. -/
inductive ReadStatus where
  | nil
  | EOF
  | err
deriving DecidableEq

/-- A call to the Docker client or to the operating system, with its result.
`err = true` and a result of `none` mean that the call returned an error.
Files and response bodies are named by the path they were opened from. -/
inductive Event where
  | MkdirAll (path : Str) (err : Bool)
  | NewClientWithOpts (version : Str) (err : Bool)
  | ServerVersion (res : Option Str)
  | ImageList (res : Option (List Image))
  | ImageSave (id : Str) (res : Option Bytes)
  | Create (path : Str) (err : Bool)
  | Copy (path : Str) (data : Bytes) (err : Bool)
  | Open (path : Str) (err : Bool)
  | Readdir (path : Str) (res : Option (List Str))
  | ImageLoad (path : Str) (res : Option Bytes)
  | Read (path : Str) (n : Nat) (status : ReadStatus)
  | Close (path : Str) (err : Bool)
  | CloseBody (path : Str) (err : Bool)
  | ImageTag (source target : Str) (err : Bool)
  | ImageRemove (tag : Str) (err : Bool)
  | ImagePush (tag : Str) (err : Bool)
deriving DecidableEq

/-- The call returned an error (`io.EOF` from `Read` is the end of the stream,
not an error). -/
def Event.failed : Event → Bool
  | .MkdirAll _ err => err
  | .NewClientWithOpts _ err => err
  | .ServerVersion res => res.isNone
  | .ImageList res => res.isNone
  | .ImageSave _ res => res.isNone
  | .Create _ err => err
  | .Copy _ _ err => err
  | .Open _ err => err
  | .Readdir _ res => res.isNone
  | .ImageLoad _ res => res.isNone
  | .Read _ _ status => decide (status = ReadStatus.err)
  | .Close _ err => err
  | .CloseBody _ err => err
  | .ImageTag _ _ err => err
  | .ImageRemove _ err => err
  | .ImagePush _ err => err

/-- The outside world: the engine and the file system.  Each field answers one
kind of call, given the events so far. -/
structure World where
  MkdirAll : List Event → Str → Bool
  NewClientWithOpts : List Event → Str → Bool
  ServerVersion : List Event → Option Str
  ImageList : List Event → Option (List Image)
  ImageSave : List Event → Str → Option Bytes
  Create : List Event → Str → Bool
  Copy : List Event → Str → Bytes → Bool
  Open : List Event → Str → Bool
  Readdir : List Event → Str → Option (List Str)
  ImageLoad : List Event → Str → Option Bytes
  Read : List Event → Str → Nat × ReadStatus
  Close : List Event → Str → Bool
  CloseBody : List Event → Str → Bool
  ImageTag : List Event → Str → Str → Bool
  ImageRemove : List Event → Str → Bool

/-- What is written to standard output: text, or the bytes of a buffer
converted to a string. -/
inductive Out where
  | text (s : Str)
  | raw (b : Bytes)
deriving DecidableEq

/-- How the process ends: a normal return, `log.Fatal` (exit status 1, no
deferred call runs), or `panic`. -/
inductive Exit where
  | ok
  | fatal
  | panic
deriving DecidableEq

/-- A deferred `Close`, of a file or of a response body. -/
inductive Deferred where
  | file (path : Str)
  | body (path : Str)
deriving DecidableEq

/-- The state of a run: the events so far, the output so far, and the stack
of deferred calls, the latest first. -/
structure St where
  calls : List Event
  out : List Out
  deferred : List Deferred

/-- A finished run. -/
structure Run where
  calls : List Event
  out : List Out
  exit : Exit

/-- Record an event. -/
def St.call (s : St) (e : Event) : St := { s with calls := s.calls ++ [e] }

/-- Write to standard output. -/
def St.print (s : St) (o : Out) : St := { s with out := s.out ++ [o] }

/-- Register a deferred call. -/
def St.defer (s : St) (d : Deferred) : St := { s with deferred := d :: s.deferred }

/-- The start of a run. -/
def St.init : St := { calls := [], out := [], deferred := [] }

/-- Run the deferred calls, the latest first; what they return is dropped. -/
def runDeferred (w : World) : List Deferred → St → St
  | [], s => s
  | .file path :: ds, s => runDeferred w ds (s.call (.Close path (w.Close s.calls path)))
  | .body path :: ds, s => runDeferred w ds (s.call (.CloseBody path (w.CloseBody s.calls path)))

/-- The end of an operation: on a normal return the deferred calls run;
`log.Fatal` exits without them. -/
def finish (w : World) (r : St × Exit) : Run :=
  match r with
  | (s, .ok) =>
    let s1 := runDeferred w s.deferred s
    { calls := s1.calls, out := s1.out, exit := .ok }
  | (s, .panic) =>
    let s1 := runDeferred w s.deferred s
    { calls := s1.calls, out := s1.out, exit := .panic }
  | (s, .fatal) => { calls := s.calls, out := s.out, exit := .fatal }

/-! ## The operations -/

/-- Go `getDockerClient`: a client at version 1.41 asks the server for its
version, and a second client is made at the version the server reports.  The
result is `.ok` when the client was made. -/
def getDockerClient (w : World) (s : St) : St × Exit :=
  let err := w.NewClientWithOpts s.calls "1.41".toList
  let s := s.call (.NewClientWithOpts "1.41".toList err)
  if err then (s, .fatal)
  else
    match w.ServerVersion s.calls with
    | none => (s.call (.ServerVersion none), .fatal)
    | some version =>
      let s := s.call (.ServerVersion (some version))
      let err := w.NewClientWithOpts s.calls version
      let s := s.call (.NewClientWithOpts version err)
      if err then (s, .fatal) else (s, .ok)

/-- The file name `saveAllImages` derives from the first repository tag
(lines 114 to 123); `none` when the tag does not split into two parts and the
image is skipped. -/
def archiveFilename (imageName : Str) : Option Str :=
  let imageNameParts := Split imageName ":".toList
  if imageNameParts.length ≠ 2 then none
  else
    let imageName := ReplaceAll (imageNameParts.getD 0 []) "/".toList "-".toList
    let imageTag := imageNameParts.getD 1 []
    some (imageName ++ "-".toList ++ imageTag ++ ".tar".toList)

/-- The body of the loop of `saveAllImages` for one image. -/
def saveImage (w : World) (imageSaveDir : Str) (image : Image) (s : St) : St × Exit :=
  match image.RepoTags with
  | [] => (s, .ok)
  | imageName :: _ =>
    let imageNameParts := Split imageName ":".toList
    if imageNameParts.length ≠ 2 then (s, .ok)
    else
      let imageName := ReplaceAll (imageNameParts.getD 0 []) "/".toList "-".toList
      let imageTag := imageNameParts.getD 1 []
      let filename := imageName ++ "-".toList ++ imageTag ++ ".tar".toList
      match w.ImageSave s.calls image.ID with
      | none => (s.call (.ImageSave image.ID none), .fatal)
      | some imageReader =>
        let s := s.call (.ImageSave image.ID (some imageReader))
        let path := imageSaveDir ++ "/".toList ++ filename
        let err := w.Create s.calls path
        let s := s.call (.Create path err)
        if err then (s, .fatal)
        else
          let s := s.defer (.file path)
          let err := w.Copy s.calls path imageReader
          let s := s.call (.Copy path imageReader err)
          if err then (s, .fatal)
          else
            (s.print (.text ("Image ".toList ++ imageName ++ " saved as ".toList
              ++ filename ++ "\n".toList)), .ok)

/-- The loop of `saveAllImages` over the images. -/
def saveImages (w : World) (imageSaveDir : Str) : List Image → St → St × Exit
  | [], s => (s, .ok)
  | image :: images, s =>
    match saveImage w imageSaveDir image s with
    | (s1, .ok) => saveImages w imageSaveDir images s1
    | r => r

/-- Go `saveAllImages`, from the start of the process. -/
def saveAllImages (w : World) (imageSaveDir : Str) : Run :=
  let s := St.init
  let err := w.MkdirAll s.calls imageSaveDir
  let s := s.call (.MkdirAll imageSaveDir err)
  if err then finish w (s, .fatal)
  else
    match getDockerClient w s with
    | (s, .ok) =>
      match w.ImageList s.calls with
      | none => finish w (s.call (.ImageList none), .fatal)
      | some images =>
        finish w (saveImages w imageSaveDir images (s.call (.ImageList (some images))))
    | r => finish w r

/-- The buffer `output` of `loadAllImages` after the single `Read`: the `n`
bytes read, then the zero bytes `make` put there. -/
def readBuffer (body : Bytes) (n : Nat) : Bytes :=
  let data := body.take (min n 4096)
  data ++ List.replicate (4096 - data.length) 0

/-- The body of the loop of `loadAllImages` for one directory entry. -/
def loadFile (w : World) (folderPath : Str) (name : Str) (s : St) : St × Exit :=
  let filePath := folderPath ++ "/".toList ++ name
  let err := w.Open s.calls filePath
  let s := s.call (.Open filePath err)
  if err then (s, .fatal)
  else
    let s := s.defer (.file filePath)
    match w.ImageLoad s.calls filePath with
    | none => (s.call (.ImageLoad filePath none), .fatal)
    | some body =>
      let s := s.call (.ImageLoad filePath (some body))
      let s := s.defer (.body filePath)
      let r := w.Read s.calls filePath
      let s := s.call (.Read filePath r.1 r.2)
      if r.2 = ReadStatus.err then (s, .fatal)
      else (s.print (.raw (readBuffer body r.1 ++ [10])), .ok)

/-- The loop of `loadAllImages` over the directory entries. -/
def loadFiles (w : World) (folderPath : Str) : List Str → St → St × Exit
  | [], s => (s, .ok)
  | name :: names, s =>
    match loadFile w folderPath name s with
    | (s1, .ok) => loadFiles w folderPath names s1
    | r => r

/-- Go `loadAllImages`, from the start of the process. -/
def loadAllImages (w : World) (imagesLoadDir : Str) : Run :=
  match getDockerClient w St.init with
  | (s, .ok) =>
    let folderPath := imagesLoadDir
    let err := w.Open s.calls folderPath
    let s := s.call (.Open folderPath err)
    if err then finish w (s, .fatal)
    else
      let s := s.defer (.file folderPath)
      match w.Readdir s.calls folderPath with
      | none => finish w (s.call (.Readdir folderPath none), .fatal)
      | some files =>
        finish w (loadFiles w folderPath files (s.call (.Readdir folderPath (some files))))
  | r => finish w r

/-- The inner loop of `replaceAllImages` over the tags of one image. -/
def replaceTags (w : World) (oldRegistry newRegistry : Str) : List Str → St → St × Exit
  | [], s => (s, .ok)
  | tag :: tags, s =>
    if !Contains tag oldRegistry then replaceTags w oldRegistry newRegistry tags s
    else
      let newTag := Replace tag oldRegistry newRegistry
      let err := w.ImageTag s.calls tag newTag
      let s := s.call (.ImageTag tag newTag err)
      if err then (s, .panic)
      else
        replaceTags w oldRegistry newRegistry tags
          (s.print (.text ("镜像 [".toList ++ tag ++ "] 的域名已更新为 [".toList
            ++ newTag ++ "]\n".toList)))

/-- The outer loop of `replaceAllImages` over the images. -/
def replaceImages (w : World) (oldRegistry newRegistry : Str) : List Image → St → St × Exit
  | [], s => (s, .ok)
  | image :: images, s =>
    match replaceTags w oldRegistry newRegistry image.RepoTags s with
    | (s1, .ok) => replaceImages w oldRegistry newRegistry images s1
    | r => r

/-- Go `replaceAllImages`, from the start of the process. -/
def replaceAllImages (w : World) (oldRegistry newRegistry : Str) : Run :=
  match getDockerClient w St.init with
  | (s, .ok) =>
    match w.ImageList s.calls with
    | none => finish w (s.call (.ImageList none), .fatal)
    | some images =>
      finish w (replaceImages w oldRegistry newRegistry images
        (s.call (.ImageList (some images))))
  | r => finish w r

/-- The inner loop of `deleteAllImages` over the tags of one image; what
`ImageRemove` returns is dropped. -/
def deleteTags (w : World) (oldRegistry : Str) : List Str → St → St
  | [], s => s
  | tag :: tags, s =>
    if Contains tag oldRegistry then
      let err := w.ImageRemove s.calls tag
      let s := s.call (.ImageRemove tag err)
      deleteTags w oldRegistry tags
        (s.print (.text ("镜像 [".toList ++ tag ++ "] 的域名已更新为 [".toList
          ++ "".toList ++ "]\n".toList)))
    else deleteTags w oldRegistry tags s

/-- The outer loop of `deleteAllImages` over the images. -/
def deleteImages (w : World) (oldRegistry : Str) : List Image → St → St
  | [], s => s
  | image :: images, s => deleteImages w oldRegistry images (deleteTags w oldRegistry image.RepoTags s)

/-- Go `deleteAllImages`, from the start of the process. -/
def deleteAllImages (w : World) (oldRegistry : Str) : Run :=
  match getDockerClient w St.init with
  | (s, .ok) =>
    match w.ImageList s.calls with
    | none => finish w (s.call (.ImageList none), .fatal)
    | some images =>
      finish w (deleteImages w oldRegistry images (s.call (.ImageList (some images))), .ok)
  | r => finish w r


/-! ## Reading a run -/

/-- The image ID of an export request. -/
def Event.exportID : Event → Option Str
  | .ImageSave id _ => some id
  | _ => none

/-- The stream an export request returned. -/
def Event.exportStream : Event → Option Bytes
  | .ImageSave _ res => res
  | _ => none

/-- The path of a file creation. -/
def Event.createdPath : Event → Option Str
  | .Create path _ => some path
  | _ => none

/-- The file and the bytes of a copy. -/
def Event.written : Event → Option (Str × Bytes)
  | .Copy path data _ => some (path, data)
  | _ => none

/-- The path of an import call. -/
def Event.importPath : Event → Option Str
  | .ImageLoad path _ => some path
  | _ => none

/-- The source and target of a tag-creation call. -/
def Event.tagCall : Event → Option (Str × Str)
  | .ImageTag source target _ => some (source, target)
  | _ => none

/-- The tag of a remove call. -/
def Event.removedTag : Event → Option Str
  | .ImageRemove tag _ => some tag
  | _ => none

/-- The event is a remove call. -/
def Event.isRemove : Event → Bool
  | .ImageRemove _ _ => true
  | _ => false

/-- The event is a push call. -/
def Event.isPush : Event → Bool
  | .ImagePush _ _ => true
  | _ => false

/-- The event is a deferred close. -/
def Event.isClose : Event → Bool
  | .Close _ _ => true
  | .CloseBody _ _ => true
  | _ => false

/-- The image is one `saveAllImages` does not skip: it has a repository tag
and the first one splits at the colon into two parts. -/
def unskipped (image : Image) : Bool :=
  decide (image.RepoTags ≠ [] ∧ (Split (image.RepoTags.headD []) ":".toList).length = 2)

/-- The path `saveAllImages` writes the archive of an image to (line 130). -/
def archivePath (imageSaveDir : Str) (image : Image) : Str :=
  imageSaveDir ++ "/".toList ++ (archiveFilename (image.RepoTags.headD [])).getD []

/-- The calls of one pass of the loop of `saveAllImages` in which nothing fails. -/
def saveEvents (imageSaveDir : Str) (image : Image) (b : Bytes) : List Event :=
  [.ImageSave image.ID (some b), .Create (archivePath imageSaveDir image) false,
    .Copy (archivePath imageSaveDir image) b false]

/-- No call of the list returned an error. -/
def Clean (l : List Event) : Prop := ∀ e ∈ l, e.failed = false

/-- The images of a successful listing. -/
def Event.listing : Event → Option (List Image)
  | .ImageList res => res
  | _ => none

/-- The entries of a successful directory read. -/
def Event.entries : Event → Option (List Str)
  | .Readdir _ res => res
  | _ => none

/-- The event belongs to the start of an operation: making the directory,
making the client, listing the images, opening and reading the directory. -/
def Event.isSetup : Event → Bool
  | .MkdirAll _ _ => true
  | .NewClientWithOpts _ _ => true
  | .ServerVersion _ => true
  | .ImageList _ => true
  | .Open _ _ => true
  | .Readdir _ _ => true
  | _ => false

/-- The path `loadAllImages` opens for a directory entry (line 166). -/
def filePath (folderPath name : Str) : Str := folderPath ++ "/".toList ++ name

/-- The calls of one pass of the loop of `loadAllImages` in which nothing fails. -/
def loadEvents (folderPath name : Str) (body : Bytes) (n : Nat) (status : ReadStatus) :
    List Event :=
  [.Open (filePath folderPath name) false, .ImageLoad (filePath folderPath name) (some body),
    .Read (filePath folderPath name) n status]

/-- The path of an open call. -/
def Event.openedPath : Event → Option Str
  | .Open path _ => some path
  | _ => none

/-- The skip condition of `saveAllImages` in the words of the specification:
the image has no repository tag, or its first tag does not split at the colon
into exactly two parts. -/
def skipped (image : Image) : Bool :=
  decide (image.RepoTags = [] ∨ (Split (image.RepoTags.headD []) ":".toList).length ≠ 2)

/-- The run stopped at its first failing call: either it returned normally and
no call failed (the deferred closes apart, whose result is dropped), or it
ended with a failure, its last call failed and none before it did. -/
def FailStop (r : Run) : Prop :=
  (r.exit = .ok ∧ ∀ e ∈ r.calls, e.failed = true → e.isClose = true) ∨
  (r.exit ≠ .ok ∧ ∃ pre ev, r.calls = pre ++ [ev] ∧ Clean pre ∧ ev.failed = true)

/-! ## Concrete worlds -/

/-- One image with the tags `myorg/app:1.2` and `myorg/app:latest`. -/
def appImage : Image :=
  { ID := "sha256:02".toList, RepoTags := ["myorg/app:1.2".toList, "myorg/app:latest".toList] }


/-- An engine and a file system in which every call succeeds: the engine
reports version 1.43 and holds `images`, the directory holds `names`, every
stream is `stream`, and one `Read` delivers all of it. -/
def calm (images : List Image) (names : List Str) (stream : Bytes) : World where
  MkdirAll := fun _ _ => false
  NewClientWithOpts := fun _ _ => false
  ServerVersion := fun _ => some "1.43".toList
  ImageList := fun _ => some images
  ImageSave := fun _ _ => some stream
  Create := fun _ _ => false
  Copy := fun _ _ _ => false
  Open := fun _ _ => false
  Readdir := fun _ _ => some names
  ImageLoad := fun _ _ => some stream
  Read := fun _ _ => (min stream.length 4096, ReadStatus.EOF)
  Close := fun _ _ => false
  CloseBody := fun _ _ => false
  ImageTag := fun _ _ _ => false
  ImageRemove := fun _ _ => false

/-- The calls with which every operation makes its client in `calm`. -/
def clientCalls : List Event :=
  [.NewClientWithOpts "1.41".toList false, .ServerVersion (some "1.43".toList),
    .NewClientWithOpts "1.43".toList false]

/-- An image list with an untagged image, two images with an ordinary tag and
one whose first tag names a registry with a port. -/
def mixedImages : List Image :=
  [{ ID := "sha256:01".toList, RepoTags := [] },
   { ID := "sha256:02".toList, RepoTags := ["myorg/app:1.2".toList, "myorg/app:latest".toList] },
   { ID := "sha256:03".toList, RepoTags := ["localhost:5000/app:1".toList] },
   { ID := "sha256:04".toList, RepoTags := ["redis:7".toList] }]

/-- One image whose only tag names a registry with a port. -/
def portImages : List Image :=
  [{ ID := "sha256:03".toList, RepoTags := ["localhost:5000/app:1".toList] }]

/-- Two images whose first tags differ only in a slash against a dash. -/
def clashImages : List Image :=
  [{ ID := "sha256:0a".toList, RepoTags := ["a/b:1".toList] },
   { ID := "sha256:0b".toList, RepoTags := ["a-b:1".toList] }]

/-- Images of two registries. -/
def registryImages : List Image :=
  [{ ID := "sha256:05".toList, RepoTags := ["old.io/app:1".toList, "hub.io/app:1".toList] },
   { ID := "sha256:06".toList, RepoTags := ["old.io/db:2".toList] }]

/-- One image whose repository name contains the name of its registry. -/
def regImages : List Image :=
  [{ ID := "sha256:07".toList, RepoTags := ["reg/reg-tools:1".toList] }]

/-- The world `calm` with the images `registryImages`, in which the engine
refuses to remove the tag `old.io/app:1`. -/
def removeFails : World where
  MkdirAll := fun _ _ => false
  NewClientWithOpts := fun _ _ => false
  ServerVersion := fun _ => some "1.43".toList
  ImageList := fun _ => some registryImages
  ImageSave := fun _ _ => some []
  Create := fun _ _ => false
  Copy := fun _ _ _ => false
  Open := fun _ _ => false
  Readdir := fun _ _ => some []
  ImageLoad := fun _ _ => some []
  Read := fun _ _ => (0, ReadStatus.EOF)
  Close := fun _ _ => false
  CloseBody := fun _ _ => false
  ImageTag := fun _ _ _ => false
  ImageRemove := fun _ tag => decide (tag = "old.io/app:1".toList)

/-! ## Lemmas on the library functions -/

theorem contains_iff (s sub : Str) : Contains s sub = true ↔ sub <:+: s := by
  induction s with
  | nil => simp [Contains]
  | cons c t ih =>
    rw [Contains, Bool.or_eq_true, ih, List.isPrefixOf_iff_prefix, List.infix_cons_iff]

theorem replaceFrom_single (a b : Char) (s : Str) :
    replaceFrom [a] [b] 0 s = s.map (fun c => if c = a then b else c) := by
  induction s with
  | nil => simp [replaceFrom]
  | cons c t ih =>
    by_cases h : c = a
    · simp [replaceFrom, h, ih]
    · have h2 : ¬ a = c := fun e => h e.symm
      simp [replaceFrom, h, h2, ih]

theorem replaceFrom_skip (old new : Str) (pre rest : Str) :
    replaceFrom old new pre.length (pre ++ rest) = replaceFrom old new 0 rest := by
  induction pre with
  | nil => simp
  | cons c t ih => simpa [replaceFrom] using ih

theorem replaceFrom_absent (old new : Str) (s : Str)
    (h : ¬ old <:+: s) : replaceFrom old new 0 s = s := by
  induction s with
  | nil => simp [replaceFrom]
  | cons c t ih =>
    rw [List.infix_cons_iff] at h
    push_neg at h
    have h1 : old.isPrefixOf (c :: t) = false := by
      rw [Bool.eq_false_iff]; intro hp; exact h.1 (List.isPrefixOf_iff_prefix.mp hp)
    simp [replaceFrom, h1, ih h.2]

/-- Replacing in a string that starts with `old` and has no other occurrence of it. -/
theorem replace_leading (old new rest : Str) (hold : old ≠ []) (h : ¬ old <:+: rest) :
    Replace (old ++ rest) old new = new ++ rest := by
  obtain ⟨c, t, rfl⟩ := List.exists_cons_of_ne_nil hold
  have hp : (c :: t).isPrefixOf (c :: (t ++ rest)) = true := by
    rw [List.isPrefixOf_iff_prefix]; exact ⟨rest, rfl⟩
  have h1 : Replace (c :: t ++ rest) (c :: t) new
      = new ++ replaceFrom (c :: t) new t.length (t ++ rest) := by
    show (if (c :: t) = [] then _ else replaceFrom (c :: t) new 0 (c :: (t ++ rest))) = _
    rw [if_neg (by simp)]
    show (if (c :: t).isPrefixOf (c :: (t ++ rest)) then _ else _) = _
    rw [if_pos hp]
    rfl
  rw [h1, replaceFrom_skip, replaceFrom_absent _ _ _ h]

theorem splitFrom_ne_nil (sep : Str) (k : Nat) (s : Str) : splitFrom sep k s ≠ [] := by
  induction s generalizing k with
  | nil => simp [splitFrom]
  | cons c t ih =>
    cases k with
    | succ k => simpa [splitFrom] using ih k
    | zero =>
      rw [splitFrom]
      split
      · simp
      · split <;> simp

theorem splitFrom_single_sep (c : Char) (t : Str) :
    splitFrom [c] 0 (c :: t) = [] :: splitFrom [c] 0 t := by
  simp [splitFrom]

theorem splitFrom_single_other (c x : Char) (t : Str) (h : x ≠ c) :
    ∃ p ps, splitFrom [c] 0 t = p :: ps ∧ splitFrom [c] 0 (x :: t) = (x :: p) :: ps := by
  have h2 : ¬ c = x := fun e => h e.symm
  cases hs : splitFrom [c] 0 t with
  | nil => exact absurd hs (splitFrom_ne_nil _ _ _)
  | cons p ps =>
    refine ⟨p, ps, rfl, ?_⟩
    rw [splitFrom]
    simp [h2, hs]

theorem splitFrom_single_one (c : Char) (s b : Str) (h : splitFrom [c] 0 s = [b]) : s = b := by
  induction s generalizing b with
  | nil => simpa [splitFrom] using h
  | cons x t ih =>
    by_cases hx : x = c
    · subst hx
      rw [splitFrom_single_sep] at h
      simp at h
      exact absurd h.2 (splitFrom_ne_nil _ _ _)
    · obtain ⟨p, ps, h1, h2⟩ := splitFrom_single_other c x t hx
      rw [h2] at h
      simp at h
      obtain ⟨rfl, rfl⟩ := h
      rw [ih p h1]

theorem splitFrom_single_two (c : Char) (s a b : Str) (h : splitFrom [c] 0 s = [a, b]) :
    s = a ++ c :: b := by
  induction s generalizing a with
  | nil => simp [splitFrom] at h
  | cons x t ih =>
    by_cases hx : x = c
    · subst hx
      rw [splitFrom_single_sep] at h
      simp at h
      obtain ⟨rfl, h⟩ := h
      rw [splitFrom_single_one x t b h]
      rfl
    · obtain ⟨p, ps, h1, h2⟩ := splitFrom_single_other c x t hx
      rw [h2] at h
      simp at h
      obtain ⟨rfl, rfl⟩ := h
      rw [ih p h1]
      rfl

theorem split_two (s a b : Str) (h : Split s ":".toList = [a, b]) : s = a ++ ':' :: b := by
  apply splitFrom_single_two
  simpa [Split] using h

theorem replaceAll_slash (s : Str) :
    ReplaceAll s "/".toList "-".toList = s.map (fun c => if c = '/' then '-' else c) := by
  have h := replaceFrom_single '/' '-' s
  simpa [ReplaceAll, Replace] using h


/-! ## Lemmas on the runs -/

@[simp] theorem call_calls (s : St) (e : Event) : (s.call e).calls = s.calls ++ [e] := rfl
@[simp] theorem call_out (s : St) (e : Event) : (s.call e).out = s.out := rfl
@[simp] theorem call_deferred (s : St) (e : Event) : (s.call e).deferred = s.deferred := rfl
@[simp] theorem print_calls (s : St) (o : Out) : (s.print o).calls = s.calls := rfl
@[simp] theorem print_out (s : St) (o : Out) : (s.print o).out = s.out ++ [o] := rfl
@[simp] theorem print_deferred (s : St) (o : Out) : (s.print o).deferred = s.deferred := rfl
@[simp] theorem defer_calls (s : St) (d : Deferred) : (s.defer d).calls = s.calls := rfl
@[simp] theorem defer_out (s : St) (d : Deferred) : (s.defer d).out = s.out := rfl
@[simp] theorem init_calls : St.init.calls = [] := rfl

theorem saveImage_cases (w : World) (dir : Str) (image : Image) (s : St) :
    (unskipped image = false ∧ saveImage w dir image s = (s, .ok)) ∨
    (unskipped image = true ∧ ∃ b, (saveImage w dir image s).2 = .ok ∧
      (saveImage w dir image s).1.calls = s.calls ++ saveEvents dir image b) ∨
    (unskipped image = true ∧ (saveImage w dir image s).2 = .fatal ∧
      ∃ pre ev, (saveImage w dir image s).1.calls = s.calls ++ pre ++ [ev] ∧
        Clean pre ∧ ev.failed = true ∧ (pre ++ [ev]).filterMap Event.listing = []) := by
  cases ht : image.RepoTags with
  | nil => left; simp [unskipped, saveImage, ht]
  | cons tag rest =>
    by_cases hl : (Split tag [':']).length = 2
    · right
      have hu : unskipped image = true := by simp [unskipped, ht, hl]
      cases h1 : w.ImageSave s.calls image.ID with
      | none =>
        right
        refine ⟨hu, by simp [saveImage, ht, hl, h1], [], .ImageSave image.ID none, ?_, ?_, rfl, rfl⟩
        · simp [saveImage, ht, hl, h1]
        · simp [Clean]
      | some b =>
        by_cases h2 : w.Create (s.calls ++ [Event.ImageSave image.ID (some b)])
            (archivePath dir image) = true
        · right
          have h2a := h2
          simp [archivePath, archiveFilename, ht, hl] at h2a
          refine ⟨hu, by simp [saveImage, ht, hl, h1, h2a],
            [.ImageSave image.ID (some b)], .Create (archivePath dir image) true, ?_, ?_, rfl, rfl⟩
          · simp [saveImage, ht, hl, h1, h2a, archivePath, archiveFilename]
          · simp [Clean, Event.failed]
        · by_cases h3 : w.Copy (s.calls ++ [Event.ImageSave image.ID (some b),
              Event.Create (archivePath dir image) false]) (archivePath dir image) b = true
          · right
            have h2a := h2
            have h3a := h3
            simp [archivePath, archiveFilename, ht, hl] at h2a h3a
            refine ⟨hu, by simp [saveImage, ht, hl, h1, h2a, h3a],
              [.ImageSave image.ID (some b), .Create (archivePath dir image) false],
              .Copy (archivePath dir image) b true, ?_, ?_, rfl, rfl⟩
            · simp [saveImage, ht, hl, h1, h2a, h3a, archivePath, archiveFilename]
            · simp [Clean, Event.failed]
          · left
            have h2a := h2
            have h3a := h3
            simp [archivePath, archiveFilename, ht, hl] at h2a h3a
            refine ⟨hu, b, by simp [saveImage, ht, hl, h1, h2a, h3a], ?_⟩
            simp [saveImage, ht, hl, h1, h2a, h3a, archivePath, archiveFilename, saveEvents]
    · left
      simp [unskipped, saveImage, ht, hl]


theorem closes_proj {α : Type} (f : Event → Option α)
    (hf : ∀ e, e.isClose = true → f e = none) (cs : List Event)
    (h : ∀ c ∈ cs, c.isClose = true) : cs.filterMap f = [] := by
  rw [List.filterMap_eq_nil_iff]
  intro c hc
  exact hf c (h c hc)

theorem runDeferred_spec (w : World) (ds : List Deferred) (s : St) :
    ∃ cs, (runDeferred w ds s).calls = s.calls ++ cs ∧ (∀ c ∈ cs, c.isClose = true) ∧
      (runDeferred w ds s).out = s.out := by
  induction ds generalizing s with
  | nil => exact ⟨[], by simp [runDeferred]⟩
  | cons d ds ih =>
    cases d with
    | file path =>
      obtain ⟨cs, h1, h2, h3⟩ := ih (s.call (.Close path (w.Close s.calls path)))
      refine ⟨.Close path (w.Close s.calls path) :: cs, ?_, ?_, ?_⟩
      · simpa [runDeferred] using h1
      · intro c hc
        rcases List.mem_cons.mp hc with rfl | hc
        · rfl
        · exact h2 c hc
      · simpa [runDeferred] using h3
    | body path =>
      obtain ⟨cs, h1, h2, h3⟩ := ih (s.call (.CloseBody path (w.CloseBody s.calls path)))
      refine ⟨.CloseBody path (w.CloseBody s.calls path) :: cs, ?_, ?_, ?_⟩
      · simpa [runDeferred] using h1
      · intro c hc
        rcases List.mem_cons.mp hc with rfl | hc
        · rfl
        · exact h2 c hc
      · simpa [runDeferred] using h3

theorem finish_spec (w : World) (s : St) (e : Exit) :
    ∃ cs, (finish w (s, e)).calls = s.calls ++ cs ∧ (∀ c ∈ cs, c.isClose = true) ∧
      (finish w (s, e)).out = s.out ∧ (finish w (s, e)).exit = e ∧ (e = .fatal → cs = []) := by
  cases e with
  | ok =>
    obtain ⟨cs, h1, h2, h3⟩ := runDeferred_spec w s.deferred s
    exact ⟨cs, h1, h2, h3, rfl, by simp⟩
  | panic =>
    obtain ⟨cs, h1, h2, h3⟩ := runDeferred_spec w s.deferred s
    exact ⟨cs, h1, h2, h3, rfl, by simp⟩
  | fatal => exact ⟨[], by simp [finish]⟩

theorem getDockerClient_cases (w : World) (s : St) :
    (∃ v, getDockerClient w s = ({ s with calls := s.calls ++ [.NewClientWithOpts "1.41".toList false,
        .ServerVersion (some v), .NewClientWithOpts v false] }, .ok)) ∨
    ((getDockerClient w s).2 = .fatal ∧ ∃ pre ev, (getDockerClient w s).1.calls = s.calls ++ pre ++ [ev] ∧
      Clean pre ∧ ev.failed = true ∧ (pre ++ [ev]).filterMap Event.listing = []
      ∧ (pre ++ [ev]).filterMap Event.entries = []
      ∧ ∀ e ∈ pre ++ [ev], e.isSetup = true) := by
  by_cases h1 : w.NewClientWithOpts s.calls ['1', '.', '4', '1'] = true
  · right
    refine ⟨by simp [getDockerClient, h1], [], .NewClientWithOpts "1.41".toList true, ?_⟩
    simp [getDockerClient, h1, Clean, Event.failed, Event.listing, Event.entries, Event.isSetup]
  · cases h2 : w.ServerVersion (s.calls ++ [.NewClientWithOpts ['1', '.', '4', '1'] false]) with
    | none =>
      right
      refine ⟨by simp [getDockerClient, h1, h2], [.NewClientWithOpts "1.41".toList false],
        .ServerVersion none, ?_⟩
      simp [getDockerClient, h1, h2, Clean, Event.failed, Event.listing, Event.entries, Event.isSetup]
    | some v =>
      by_cases h3 : w.NewClientWithOpts (s.calls ++ [.NewClientWithOpts ['1', '.', '4', '1'] false,
          .ServerVersion (some v)]) v = true
      · right
        refine ⟨by simp [getDockerClient, h1, h2, h3], [.NewClientWithOpts "1.41".toList false,
          .ServerVersion (some v)], .NewClientWithOpts v true, ?_⟩
        simp [getDockerClient, h1, h2, h3, Clean, Event.failed, Event.listing, Event.entries, Event.isSetup]
      · left
        refine ⟨v, ?_⟩
        simp [getDockerClient, h1, h2, h3, St.call]

theorem saveImages_spec (w : World) (dir : Str) (images : List Image) (s : St) :
    ∃ added, (saveImages w dir images s).1.calls = s.calls ++ added ∧
      added.filterMap Event.listing = [] ∧
      (((saveImages w dir images s).2 = .ok ∧ Clean added ∧
        added.filterMap Event.exportID = (images.filter unskipped).map (·.ID) ∧
        added.filterMap Event.createdPath = (images.filter unskipped).map (archivePath dir) ∧
        added.filterMap Event.written = List.zip ((images.filter unskipped).map (archivePath dir))
          (added.filterMap Event.exportStream) ∧
        (added.filterMap Event.exportStream).length = (images.filter unskipped).length) ∨
      ((saveImages w dir images s).2 = .fatal ∧ ∃ pre ev, added = pre ++ [ev] ∧
        Clean pre ∧ ev.failed = true)) := by
  induction images generalizing s with
  | nil => exact ⟨[], by simp [saveImages, Clean]⟩
  | cons image images ih =>
    rcases saveImage_cases w dir image s with
      ⟨hu, h⟩ | ⟨hu, b, he, hc⟩ | ⟨hu, he, pre, ev, hc, hpre, hev, hli⟩
    · have hs : saveImages w dir (image :: images) s = saveImages w dir images s := by
        simp [saveImages, h]
      rw [hs, List.filter_cons_of_neg (by simp [hu])]
      exact ih s
    · cases hr : saveImage w dir image s with
      | mk s1 e =>
        rw [hr] at he hc
        simp only at he hc
        subst he
        have hs : saveImages w dir (image :: images) s = saveImages w dir images s1 := by
          simp [saveImages, hr]
        obtain ⟨added, h1, hl, h2⟩ := ih s1
        rw [hs, List.filter_cons_of_pos hu]
        refine ⟨saveEvents dir image b ++ added, by rw [h1, hc, List.append_assoc],
          by simp [saveEvents, Event.listing, hl], ?_⟩
        rcases h2 with ⟨e1, e2, e3, e4, e5, e6⟩ | ⟨e1, p, v, e2, e3, e4⟩
        · left
          refine ⟨e1, ?_, ?_, ?_, ?_, ?_⟩
          · intro x hx
            rcases List.mem_append.mp hx with hx | hx
            · simp [saveEvents] at hx
              rcases hx with rfl | rfl | rfl <;> rfl
            · exact e2 x hx
          · simp [saveEvents, Event.exportID, e3]
          · simp [saveEvents, Event.createdPath, e4]
          · simp [saveEvents, Event.written, Event.exportStream, e5]
          · simp [saveEvents, Event.exportStream, e6]
        · right
          refine ⟨e1, saveEvents dir image b ++ p, v, by rw [e2, List.append_assoc], ?_, e4⟩
          intro x hx
          rcases List.mem_append.mp hx with hx | hx
          · simp [saveEvents] at hx
            rcases hx with rfl | rfl | rfl <;> rfl
          · exact e3 x hx
    · cases hr : saveImage w dir image s with
      | mk s1 e =>
        rw [hr] at he hc
        simp only at he hc
        subst he
        have hs : saveImages w dir (image :: images) s = (s1, .fatal) := by
          simp [saveImages, hr]
        rw [hs]
        exact ⟨pre ++ [ev], by rw [hc, List.append_assoc], hli,
          Or.inr ⟨rfl, pre, ev, rfl, hpre, hev⟩⟩


theorem getDockerClient_ok (w : World) (s s1 : St) (h : getDockerClient w s = (s1, .ok)) :
    ∃ v, s1.calls = s.calls ++ [.NewClientWithOpts "1.41".toList false,
        .ServerVersion (some v), .NewClientWithOpts v false] ∧ s1.out = s.out
        ∧ s1.deferred = s.deferred := by
  rcases getDockerClient_cases w s with ⟨v, hv⟩ | ⟨he, _⟩
  · rw [hv] at h
    injection h with h _
    subst h
    exact ⟨v, rfl, rfl, rfl⟩
  · rw [h] at he
    exact Exit.noConfusion he

theorem getDockerClient_fatal (w : World) (s s1 : St) (e : Exit)
    (h : getDockerClient w s = (s1, e)) (hne : e ≠ .ok) :
    e = .fatal ∧ ∃ pre ev, s1.calls = s.calls ++ pre ++ [ev] ∧
      Clean pre ∧ ev.failed = true ∧ (pre ++ [ev]).filterMap Event.listing = []
      ∧ (pre ++ [ev]).filterMap Event.entries = []
      ∧ ∀ e ∈ pre ++ [ev], e.isSetup = true := by
  rcases getDockerClient_cases w s with ⟨v, hv⟩ | ⟨he, hrest⟩
  · rw [hv] at h
    injection h with _ h
    exact absurd h.symm hne
  · rw [h] at he hrest
    exact ⟨he, hrest⟩

theorem saveAllImages_cases (w : World) (dir : Str) :
    (saveAllImages w dir).calls.filterMap Event.listing = [] ∨
    ∃ v images s0, s0.calls = [.MkdirAll dir false, .NewClientWithOpts "1.41".toList false,
          .ServerVersion (some v), .NewClientWithOpts v false, .ImageList (some images)] ∧
      saveAllImages w dir = finish w (saveImages w dir images s0) := by
  unfold saveAllImages
  dsimp only
  split
  · left
    rfl
  · next h1 =>
    have h1 : w.MkdirAll St.init.calls dir = false := by simpa using h1
    rw [h1]
    split
    · next s1 hg =>
      obtain ⟨v, hv, -, -⟩ := getDockerClient_ok w _ s1 hg
      split
      · left
        show List.filterMap Event.listing (s1.calls ++ [Event.ImageList none]) = []
        rw [hv]
        rfl
      · next images hi =>
        right
        exact ⟨v, images, _, by rw [call_calls, hv]; rfl, rfl⟩
    · next r hne =>
      left
      cases hr : getDockerClient w (St.init.call (Event.MkdirAll dir false)) with
      | mk s1 e =>
        have hne2 : e ≠ .ok := by
          rintro rfl
          exact hne s1 hr
        obtain ⟨rfl, pre, ev, hc, -, -, hl, -, -⟩ := getDockerClient_fatal w _ s1 e hr hne2
        show List.filterMap Event.listing s1.calls = []
        rw [hc, List.append_assoc, List.filterMap_append, hl]
        rfl

theorem closes_listing (cs : List Event) (h : ∀ c ∈ cs, c.isClose = true) :
    cs.filterMap Event.listing = [] :=
  closes_proj _ (by intro e he; cases e <;> first | rfl | exact Bool.noConfusion he) cs h

theorem closes_exportID (cs : List Event) (h : ∀ c ∈ cs, c.isClose = true) :
    cs.filterMap Event.exportID = [] :=
  closes_proj _ (by intro e he; cases e <;> first | rfl | exact Bool.noConfusion he) cs h

theorem closes_exportStream (cs : List Event) (h : ∀ c ∈ cs, c.isClose = true) :
    cs.filterMap Event.exportStream = [] :=
  closes_proj _ (by intro e he; cases e <;> first | rfl | exact Bool.noConfusion he) cs h

theorem closes_createdPath (cs : List Event) (h : ∀ c ∈ cs, c.isClose = true) :
    cs.filterMap Event.createdPath = [] :=
  closes_proj _ (by intro e he; cases e <;> first | rfl | exact Bool.noConfusion he) cs h

theorem closes_written (cs : List Event) (h : ∀ c ∈ cs, c.isClose = true) :
    cs.filterMap Event.written = [] :=
  closes_proj _ (by intro e he; cases e <;> first | rfl | exact Bool.noConfusion he) cs h

/-- A run of save in which the engine lists `images` and no call fails: what it exports, creates and writes. -/
theorem save_master (w : World) (dir : Str) (images : List Image)
    (hlist : Event.ImageList (some images) ∈ (saveAllImages w dir).calls)
    (hok : Clean (saveAllImages w dir).calls) :
    (saveAllImages w dir).exit = .ok ∧
    (saveAllImages w dir).calls.filterMap Event.exportID
      = (images.filter unskipped).map (·.ID) ∧
    (saveAllImages w dir).calls.filterMap Event.createdPath
      = (images.filter unskipped).map (archivePath dir) ∧
    (saveAllImages w dir).calls.filterMap Event.written
      = List.zip ((images.filter unskipped).map (archivePath dir))
          ((saveAllImages w dir).calls.filterMap Event.exportStream) ∧
    ((saveAllImages w dir).calls.filterMap Event.exportStream).length
      = (images.filter unskipped).length := by
  have hmem : images ∈ (saveAllImages w dir).calls.filterMap Event.listing :=
    List.mem_filterMap.mpr ⟨_, hlist, rfl⟩
  rcases saveAllImages_cases w dir with h | ⟨v, imgs, s0, hs0c, h⟩
  · rw [h] at hmem
    simp at hmem
  · rw [h] at hmem hok ⊢
    obtain ⟨added, ha, hl, hcase⟩ := saveImages_spec w dir imgs s0
    cases hr : saveImages w dir imgs s0 with
    | mk s1 e =>
      rw [hr] at ha hcase
      simp only at ha hcase
      obtain ⟨cs, hf1, hf2, -, hf4, -⟩ := finish_spec w s1 e
      rw [hr, hf1, ha, hs0c] at hmem hok
      rw [hf1, ha, hs0c, hf4]
      have c1 := closes_listing cs hf2
      have c2 := closes_exportID cs hf2
      have c3 := closes_createdPath cs hf2
      have c4 := closes_written cs hf2
      have c5 := closes_exportStream cs hf2
      have himg : images = imgs := by
        rw [List.filterMap_append, List.filterMap_append, hl, c1] at hmem
        simpa [Event.listing] using hmem
      subst himg
      rcases hcase with ⟨e1, e2, e3, e4, e5, e6⟩ | ⟨e1, p, ev, e2, e3, e4⟩
      · simp only [List.filterMap_append, c2, c3, c4, c5, e3, e4, e5, e6, List.append_nil]
        exact ⟨e1, rfl, rfl, rfl, e6⟩
      · exfalso
        have := hok ev (by simp [e2])
        rw [e4] at this
        exact Bool.noConfusion this

theorem replaceTags_spec (w : World) (old new : Str) (tags : List Str) (s : St) :
    ∃ added, (replaceTags w old new tags s).1.calls = s.calls ++ added ∧
      (∀ e ∈ added, ∃ t err, e = .ImageTag t (Replace t old new) err ∧ t ∈ tags ∧
        Contains t old = true) ∧
      (((replaceTags w old new tags s).2 = .ok ∧ Clean added ∧
        added.filterMap Event.tagCall
          = (tags.filter (fun t => Contains t old)).map (fun t => (t, Replace t old new))) ∨
      ((replaceTags w old new tags s).2 = .panic ∧ ∃ pre ev, added = pre ++ [ev] ∧
        Clean pre ∧ ev.failed = true)) := by
  induction tags generalizing s with
  | nil => exact ⟨[], by simp [replaceTags, Clean]⟩
  | cons tag tags ih =>
    by_cases hc : Contains tag old = true
    · by_cases he : w.ImageTag s.calls tag (Replace tag old new) = true
      · refine ⟨[.ImageTag tag (Replace tag old new) true], by simp [replaceTags, hc, he], ?_,
          Or.inr ⟨by simp [replaceTags, hc, he], [], _, rfl, by simp [Clean], rfl⟩⟩
        intro e h
        rw [List.mem_singleton] at h
        exact ⟨tag, true, h, List.mem_cons_self _ _, hc⟩
      · obtain ⟨s1, hs, hs1⟩ : ∃ s1, replaceTags w old new (tag :: tags) s
            = replaceTags w old new tags s1 ∧
            s1.calls = s.calls ++ [.ImageTag tag (Replace tag old new) false] := by
          refine ⟨(s.call (.ImageTag tag (Replace tag old new) false)).print
            (.text ("镜像 [".toList ++ tag ++ "] 的域名已更新为 [".toList
              ++ Replace tag old new ++ "]\n".toList)), ?_, rfl⟩
          rw [replaceTags]
          simp only [hc, he, Bool.not_true, Bool.false_eq_true, if_false]
        obtain ⟨added, h1, h2, h3⟩ := ih s1
        rw [hs]
        refine ⟨.ImageTag tag (Replace tag old new) false :: added, by simp [h1, hs1], ?_, ?_⟩
        · intro e h
          rcases List.mem_cons.mp h with rfl | h
          · exact ⟨tag, false, rfl, List.mem_cons_self _ _, hc⟩
          · obtain ⟨t, err, e1, e2, e3⟩ := h2 e h
            exact ⟨t, err, e1, List.mem_cons_of_mem _ e2, e3⟩
        · rcases h3 with ⟨e1, e2, e3⟩ | ⟨e1, p, v, e2, e3, e4⟩
          · left
            refine ⟨e1, ?_, ?_⟩
            · intro x hx
              rcases List.mem_cons.mp hx with rfl | hx
              · rfl
              · exact e2 x hx
            · simp [Event.tagCall, e3, hc]
          · right
            refine ⟨e1, .ImageTag tag (Replace tag old new) false :: p, v, by simp [e2], ?_, e4⟩
            intro x hx
            rcases List.mem_cons.mp hx with rfl | hx
            · rfl
            · exact e3 x hx
    · have hs : replaceTags w old new (tag :: tags) s = replaceTags w old new tags s := by
        simp [replaceTags, hc]
      obtain ⟨added, h1, h2, h3⟩ := ih s
      rw [hs]
      refine ⟨added, h1, ?_, ?_⟩
      · intro e h
        obtain ⟨t, err, e1, e2, e3⟩ := h2 e h
        exact ⟨t, err, e1, List.mem_cons_of_mem _ e2, e3⟩
      · simpa [hc] using h3

theorem replaceImages_spec (w : World) (old new : Str) (images : List Image) (s : St) :
    ∃ added, (replaceImages w old new images s).1.calls = s.calls ++ added ∧
      (∀ e ∈ added, ∃ t err, e = .ImageTag t (Replace t old new) err ∧
        t ∈ images.flatMap (·.RepoTags) ∧ Contains t old = true) ∧
      (((replaceImages w old new images s).2 = .ok ∧ Clean added ∧
        added.filterMap Event.tagCall
          = ((images.flatMap (·.RepoTags)).filter (fun t => Contains t old)).map
              (fun t => (t, Replace t old new))) ∨
      ((replaceImages w old new images s).2 = .panic ∧ ∃ pre ev, added = pre ++ [ev] ∧
        Clean pre ∧ ev.failed = true)) := by
  induction images generalizing s with
  | nil => exact ⟨[], by simp [replaceImages, Clean]⟩
  | cons image images ih =>
    obtain ⟨a1, h1, h2, h3⟩ := replaceTags_spec w old new image.RepoTags s
    cases hr : replaceTags w old new image.RepoTags s with
    | mk s1 e =>
      rw [hr] at h1 h3
      simp only at h1 h3
      rcases h3 with ⟨rfl, c1, c2⟩ | ⟨rfl, p, v, c1, c2, c3⟩
      · have hs : replaceImages w old new (image :: images) s
            = replaceImages w old new images s1 := by
          simp [replaceImages, hr]
        obtain ⟨a2, g1, g2, g3⟩ := ih s1
        rw [hs]
        refine ⟨a1 ++ a2, by rw [g1, h1, List.append_assoc], ?_, ?_⟩
        · intro e h
          rcases List.mem_append.mp h with h | h
          · obtain ⟨t, err, e1, e2, e3⟩ := h2 e h
            exact ⟨t, err, e1, by simp [e2], e3⟩
          · obtain ⟨t, err, e1, e2, e3⟩ := g2 e h
            exact ⟨t, err, e1, by
              rw [List.flatMap_cons]
              exact List.mem_append_right _ e2, e3⟩
        · rcases g3 with ⟨d1, d2, d3⟩ | ⟨d1, p, v, d2, d3, d4⟩
          · left
            refine ⟨d1, ?_, ?_⟩
            · intro x hx
              rcases List.mem_append.mp hx with hx | hx
              · exact c1 x hx
              · exact d2 x hx
            · simp [c2, d3]
          · right
            refine ⟨d1, a1 ++ p, v, by rw [d2, List.append_assoc], ?_, d4⟩
            intro x hx
            rcases List.mem_append.mp hx with hx | hx
            · exact c1 x hx
            · exact d3 x hx
      · have hs : replaceImages w old new (image :: images) s = (s1, .panic) := by
          simp [replaceImages, hr]
        rw [hs]
        refine ⟨a1, h1, ?_, Or.inr ⟨rfl, p, v, c1, c2, c3⟩⟩
        intro e h
        obtain ⟨t, err, e1, e2, e3⟩ := h2 e h
        exact ⟨t, err, e1, by simp [e2], e3⟩

theorem deleteTags_spec (w : World) (old : Str) (tags : List Str) (s : St) :
    ∃ added, (deleteTags w old tags s).calls = s.calls ++ added ∧
      (∀ e ∈ added, ∃ t err, e = .ImageRemove t err) ∧
      added.filterMap Event.removedTag = tags.filter (fun t => Contains t old) := by
  induction tags generalizing s with
  | nil => exact ⟨[], by simp [deleteTags]⟩
  | cons tag tags ih =>
    by_cases hc : Contains tag old = true
    · obtain ⟨s1, hs, hs1⟩ : ∃ s1, deleteTags w old (tag :: tags) s = deleteTags w old tags s1 ∧
          s1.calls = s.calls ++ [.ImageRemove tag (w.ImageRemove s.calls tag)] := by
        refine ⟨(s.call (.ImageRemove tag (w.ImageRemove s.calls tag))).print
          (.text ("镜像 [".toList ++ tag ++ "] 的域名已更新为 [".toList
            ++ "".toList ++ "]\n".toList)), ?_, rfl⟩
        rw [deleteTags]
        simp only [hc, if_true]
      obtain ⟨added, h1, h2, h3⟩ := ih s1
      rw [hs]
      refine ⟨.ImageRemove tag (w.ImageRemove s.calls tag) :: added, by simp [h1, hs1], ?_, ?_⟩
      · intro e h
        rcases List.mem_cons.mp h with rfl | h
        · exact ⟨_, _, rfl⟩
        · exact h2 e h
      · simp [Event.removedTag, h3, hc]
    · have hs : deleteTags w old (tag :: tags) s = deleteTags w old tags s := by
        simp [deleteTags, hc]
      obtain ⟨added, h1, h2, h3⟩ := ih s
      rw [hs]
      exact ⟨added, h1, h2, by simpa [hc] using h3⟩

theorem deleteImages_spec (w : World) (old : Str) (images : List Image) (s : St) :
    ∃ added, (deleteImages w old images s).calls = s.calls ++ added ∧
      (∀ e ∈ added, ∃ t err, e = .ImageRemove t err) ∧
      added.filterMap Event.removedTag
        = (images.flatMap (·.RepoTags)).filter (fun t => Contains t old) := by
  induction images generalizing s with
  | nil => exact ⟨[], by simp [deleteImages]⟩
  | cons image images ih =>
    obtain ⟨a1, h1, h2, h3⟩ := deleteTags_spec w old image.RepoTags s
    obtain ⟨a2, g1, g2, g3⟩ := ih (deleteTags w old image.RepoTags s)
    refine ⟨a1 ++ a2, by rw [deleteImages, g1, h1, List.append_assoc], ?_, ?_⟩
    · intro e h
      rcases List.mem_append.mp h with h | h
      · exact h2 e h
      · exact g2 e h
    · simp [h3, g3]


theorem replaceAllImages_cases (w : World) (old new : Str) :
    ((replaceAllImages w old new).calls.filterMap Event.listing = [] ∧
      ∀ e ∈ (replaceAllImages w old new).calls, e.isSetup = true) ∨
    ∃ v images s0, s0.calls = [.NewClientWithOpts "1.41".toList false,
          .ServerVersion (some v), .NewClientWithOpts v false, .ImageList (some images)] ∧
      replaceAllImages w old new = finish w (replaceImages w old new images s0) := by
  unfold replaceAllImages
  split
  · next s1 hg =>
    obtain ⟨v, hv, -, -⟩ := getDockerClient_ok w _ s1 hg
    rw [init_calls, List.nil_append] at hv
    split
    · left
      show List.filterMap Event.listing (s1.calls ++ [Event.ImageList none]) = [] ∧
        ∀ e ∈ s1.calls ++ [Event.ImageList none], e.isSetup = true
      rw [hv]
      refine ⟨rfl, ?_⟩
      intro e he
      simp at he
      rcases he with rfl | rfl | rfl | rfl <;> rfl
    · next images hi =>
      right
      exact ⟨v, images, _, by rw [call_calls, hv]; rfl, rfl⟩
  · next r hne =>
    left
    cases hr : getDockerClient w St.init with
    | mk s1 e =>
      have hne2 : e ≠ .ok := by
        rintro rfl
        exact hne s1 hr
      obtain ⟨rfl, pre, ev, hc, -, -, hl, -, hs⟩ := getDockerClient_fatal w _ s1 e hr hne2
      show List.filterMap Event.listing s1.calls = [] ∧ ∀ e ∈ s1.calls, e.isSetup = true
      rw [hc, init_calls, List.nil_append]
      exact ⟨hl, hs⟩

theorem deleteAllImages_cases (w : World) (old : Str) :
    ((deleteAllImages w old).calls.filterMap Event.listing = [] ∧
      ∀ e ∈ (deleteAllImages w old).calls, e.isSetup = true) ∨
    ∃ v images s0, s0.calls = [.NewClientWithOpts "1.41".toList false,
          .ServerVersion (some v), .NewClientWithOpts v false, .ImageList (some images)] ∧
      deleteAllImages w old = finish w (deleteImages w old images s0, .ok) := by
  unfold deleteAllImages
  split
  · next s1 hg =>
    obtain ⟨v, hv, -, -⟩ := getDockerClient_ok w _ s1 hg
    rw [init_calls, List.nil_append] at hv
    split
    · left
      show List.filterMap Event.listing (s1.calls ++ [Event.ImageList none]) = [] ∧
        ∀ e ∈ s1.calls ++ [Event.ImageList none], e.isSetup = true
      rw [hv]
      refine ⟨rfl, ?_⟩
      intro e he
      simp at he
      rcases he with rfl | rfl | rfl | rfl <;> rfl
    · next images hi =>
      right
      exact ⟨v, images, _, by rw [call_calls, hv]; rfl, rfl⟩
  · next r hne =>
    left
    cases hr : getDockerClient w St.init with
    | mk s1 e =>
      have hne2 : e ≠ .ok := by
        rintro rfl
        exact hne s1 hr
      obtain ⟨rfl, pre, ev, hc, -, -, hl, -, hs⟩ := getDockerClient_fatal w _ s1 e hr hne2
      show List.filterMap Event.listing s1.calls = [] ∧ ∀ e ∈ s1.calls, e.isSetup = true
      rw [hc, init_calls, List.nil_append]
      exact ⟨hl, hs⟩

theorem closes_tagCall (cs : List Event) (h : ∀ c ∈ cs, c.isClose = true) :
    cs.filterMap Event.tagCall = [] :=
  closes_proj _ (by intro e he; cases e <;> first | rfl | exact Bool.noConfusion he) cs h

theorem closes_removedTag (cs : List Event) (h : ∀ c ∈ cs, c.isClose = true) :
    cs.filterMap Event.removedTag = [] :=
  closes_proj _ (by intro e he; cases e <;> first | rfl | exact Bool.noConfusion he) cs h

theorem tags_listing (old new : Str) (tags : List Str) (added : List Event)
    (h : ∀ e ∈ added, ∃ t err, e = Event.ImageTag t (Replace t old new) err ∧ t ∈ tags ∧
      Contains t old = true) : added.filterMap Event.listing = [] := by
  rw [List.filterMap_eq_nil_iff]
  intro e he
  obtain ⟨t, err, rfl, -, -⟩ := h e he
  rfl

theorem removes_listing (added : List Event)
    (h : ∀ e ∈ added, ∃ t err, e = Event.ImageRemove t err) :
    added.filterMap Event.listing = [] := by
  rw [List.filterMap_eq_nil_iff]
  intro e he
  obtain ⟨t, err, rfl⟩ := h e he
  rfl

/-- Every call of a run of `replaceAllImages` is a call of the start of the
operation, a deferred close, or a tag-creation call whose source contains the
old registry and whose target is the source with the old registry replaced. -/
theorem replace_events (w : World) (old new : Str) :
    ∀ e ∈ (replaceAllImages w old new).calls, e.isSetup = true ∨ e.isClose = true ∨
      ∃ t err, e = .ImageTag t (Replace t old new) err ∧ Contains t old = true := by
  rcases replaceAllImages_cases w old new with ⟨-, h⟩ | ⟨v, imgs, s0, hs0, h⟩
  · intro e he
    exact Or.inl (h e he)
  · rw [h]
    obtain ⟨added, ha, hev, -⟩ := replaceImages_spec w old new imgs s0
    cases hr : replaceImages w old new imgs s0 with
    | mk s1 x =>
      rw [hr] at ha
      simp only at ha
      obtain ⟨cs, hf1, hf2, -, -, -⟩ := finish_spec w s1 x
      rw [hf1, ha, hs0]
      intro e he
      rcases List.mem_append.mp he with he | he
      · rcases List.mem_append.mp he with he | he
        · left
          simp at he
          rcases he with rfl | rfl | rfl | rfl <;> rfl
        · right
          right
          obtain ⟨t, err, e1, -, e3⟩ := hev e he
          exact ⟨t, err, e1, e3⟩
      · exact Or.inr (Or.inl (hf2 e he))

/-- A run of replace in which the engine lists `images` and no call fails: the tag-creation calls it issues. -/
theorem replace_master (w : World) (old new : Str) (images : List Image)
    (hlist : Event.ImageList (some images) ∈ (replaceAllImages w old new).calls)
    (hok : Clean (replaceAllImages w old new).calls) :
    (replaceAllImages w old new).exit = .ok ∧
    (replaceAllImages w old new).calls.filterMap Event.tagCall
      = ((images.flatMap (·.RepoTags)).filter (fun t => Contains t old)).map
          (fun t => (t, Replace t old new)) := by
  have hmem : images ∈ (replaceAllImages w old new).calls.filterMap Event.listing :=
    List.mem_filterMap.mpr ⟨_, hlist, rfl⟩
  rcases replaceAllImages_cases w old new with ⟨h, -⟩ | ⟨v, imgs, s0, hs0c, h⟩
  · rw [h] at hmem
    simp at hmem
  · rw [h] at hmem hok ⊢
    obtain ⟨added, ha, hev, hcase⟩ := replaceImages_spec w old new imgs s0
    cases hr : replaceImages w old new imgs s0 with
    | mk s1 e =>
      rw [hr] at ha hcase
      simp only at ha hcase
      obtain ⟨cs, hf1, hf2, -, hf4, -⟩ := finish_spec w s1 e
      rw [hr, hf1, ha, hs0c] at hmem hok
      rw [hf1, ha, hs0c, hf4]
      have c1 := closes_listing cs hf2
      have c2 := closes_tagCall cs hf2
      have hl := tags_listing old new _ added hev
      have himg : images = imgs := by
        rw [List.filterMap_append, List.filterMap_append, hl, c1] at hmem
        simpa [Event.listing] using hmem
      subst himg
      rcases hcase with ⟨e1, e2, e3⟩ | ⟨e1, p, ev, e2, e3, e4⟩
      · simp only [List.filterMap_append, c2, e3, List.append_nil]
        exact ⟨e1, rfl⟩
      · exfalso
        have := hok ev (by simp [e2])
        rw [e4] at this
        exact Bool.noConfusion this

/-- A run of delete in which the engine lists `images`: the remove calls it issues, whatever they return. -/
theorem delete_master (w : World) (old : Str) (images : List Image)
    (hlist : Event.ImageList (some images) ∈ (deleteAllImages w old).calls) :
    (deleteAllImages w old).exit = .ok ∧
    (deleteAllImages w old).calls.filterMap Event.removedTag
      = (images.flatMap (·.RepoTags)).filter (fun t => Contains t old) := by
  have hmem : images ∈ (deleteAllImages w old).calls.filterMap Event.listing :=
    List.mem_filterMap.mpr ⟨_, hlist, rfl⟩
  rcases deleteAllImages_cases w old with ⟨h, -⟩ | ⟨v, imgs, s0, hs0c, h⟩
  · rw [h] at hmem
    simp at hmem
  · rw [h] at hmem ⊢
    obtain ⟨added, ha, hev, hrem⟩ := deleteImages_spec w old imgs s0
    obtain ⟨cs, hf1, hf2, -, hf4, -⟩ := finish_spec w (deleteImages w old imgs s0) .ok
    rw [hf1, ha, hs0c] at hmem
    rw [hf1, ha, hs0c, hf4]
    have c1 := closes_listing cs hf2
    have c2 := closes_removedTag cs hf2
    have hl := removes_listing added hev
    have himg : images = imgs := by
      rw [List.filterMap_append, List.filterMap_append, hl, c1] at hmem
      simpa [Event.listing] using hmem
    subst himg
    refine ⟨rfl, ?_⟩
    rw [List.filterMap_append, List.filterMap_append, c2, hrem, List.append_nil]
    rfl

theorem loadFile_cases (w : World) (dir name : Str) (s : St) :
    (∃ body n status, status ≠ ReadStatus.err ∧ (loadFile w dir name s).2 = .ok ∧
      (loadFile w dir name s).1.calls = s.calls ++ loadEvents dir name body n status ∧
      (loadFile w dir name s).1.out = s.out ++ [.raw (readBuffer body n ++ [10])]) ∨
    ((loadFile w dir name s).2 = .fatal ∧
      ∃ pre ev, (loadFile w dir name s).1.calls = s.calls ++ pre ++ [ev] ∧
        Clean pre ∧ ev.failed = true ∧ (pre ++ [ev]).filterMap Event.entries = []) := by
  by_cases h1 : w.Open s.calls (filePath dir name) = true
  · right
    have h1a := h1
    simp [filePath] at h1a
    refine ⟨by simp [loadFile, h1a], [], .Open (filePath dir name) true, ?_, ?_, rfl, rfl⟩
    · simp [loadFile, h1a, filePath]
    · simp [Clean]
  · cases h2 : w.ImageLoad (s.calls ++ [Event.Open (filePath dir name) false])
        (filePath dir name) with
    | none =>
      right
      have h1a := h1
      have h2a := h2
      simp [filePath] at h1a h2a
      refine ⟨by simp [loadFile, h1a, h2a], [.Open (filePath dir name) false],
        .ImageLoad (filePath dir name) none, ?_, ?_, rfl, rfl⟩
      · simp [loadFile, h1a, h2a, filePath]
      · simp [Clean, Event.failed]
    | some body =>
      cases h3 : w.Read (s.calls ++ [Event.Open (filePath dir name) false,
          Event.ImageLoad (filePath dir name) (some body)]) (filePath dir name) with
      | mk n status =>
        have h1a := h1
        have h2a := h2
        have h3a := h3
        simp [filePath] at h1a h2a h3a
        by_cases h4 : status = ReadStatus.err
        · right
          refine ⟨by simp [loadFile, h1a, h2a, h3a, h4], [.Open (filePath dir name) false,
            .ImageLoad (filePath dir name) (some body)], .Read (filePath dir name) n status,
            ?_, ?_, by simp [Event.failed, h4], rfl⟩
          · simp [loadFile, h1a, h2a, h3a, h4, filePath]
          · simp [Clean, Event.failed]
        · left
          refine ⟨body, n, status, h4, by simp [loadFile, h1a, h2a, h3a, h4], ?_, ?_⟩
          · simp [loadFile, h1a, h2a, h3a, h4, filePath, loadEvents]
          · simp [loadFile, h1a, h2a, h3a, h4]

theorem loadFiles_spec (w : World) (dir : Str) (names : List Str) (s : St) :
    ∃ added, (loadFiles w dir names s).1.calls = s.calls ++ added ∧
      added.filterMap Event.entries = [] ∧
      (((loadFiles w dir names s).2 = .ok ∧ Clean added ∧
        added.filterMap Event.importPath = names.map (filePath dir) ∧
        added.filterMap Event.openedPath = names.map (filePath dir)) ∨
      ((loadFiles w dir names s).2 = .fatal ∧ ∃ pre ev, added = pre ++ [ev] ∧
        Clean pre ∧ ev.failed = true)) := by
  induction names generalizing s with
  | nil => exact ⟨[], by simp [loadFiles, Clean]⟩
  | cons name names ih =>
    rcases loadFile_cases w dir name s with
      ⟨body, n, status, hst, he, hc, -⟩ | ⟨he, pre, ev, hc, hpre, hev, hli⟩
    · cases hr : loadFile w dir name s with
      | mk s1 e =>
        rw [hr] at he hc
        simp only at he hc
        subst he
        have hs : loadFiles w dir (name :: names) s = loadFiles w dir names s1 := by
          simp [loadFiles, hr]
        obtain ⟨added, h1, hl, h2⟩ := ih s1
        have hclean : Clean (loadEvents dir name body n status) := by
          intro x hx
          simp [loadEvents] at hx
          rcases hx with rfl | rfl | rfl
          · rfl
          · rfl
          · simp [Event.failed, hst]
        rw [hs]
        refine ⟨loadEvents dir name body n status ++ added, by rw [h1, hc, List.append_assoc],
          by simp [loadEvents, Event.entries, hl], ?_⟩
        rcases h2 with ⟨e1, e2, e3, e4⟩ | ⟨e1, p, v, e2, e3, e4⟩
        · left
          refine ⟨e1, ?_, ?_, ?_⟩
          · intro x hx
            rcases List.mem_append.mp hx with hx | hx
            · exact hclean x hx
            · exact e2 x hx
          · simp [loadEvents, Event.importPath, e3]
          · simp [loadEvents, Event.openedPath, e4]
        · right
          refine ⟨e1, loadEvents dir name body n status ++ p, v,
            by rw [e2, List.append_assoc], ?_, e4⟩
          intro x hx
          rcases List.mem_append.mp hx with hx | hx
          · exact hclean x hx
          · exact e3 x hx
    · cases hr : loadFile w dir name s with
      | mk s1 e =>
        rw [hr] at he hc
        simp only at he hc
        subst he
        have hs : loadFiles w dir (name :: names) s = (s1, .fatal) := by
          simp [loadFiles, hr]
        rw [hs]
        exact ⟨pre ++ [ev], by rw [hc, List.append_assoc], hli,
          Or.inr ⟨rfl, pre, ev, rfl, hpre, hev⟩⟩

theorem loadAllImages_cases (w : World) (dir : Str) :
    (loadAllImages w dir).calls.filterMap Event.entries = [] ∨
    ∃ v names s0, s0.calls = [.NewClientWithOpts "1.41".toList false,
          .ServerVersion (some v), .NewClientWithOpts v false, .Open dir false,
          .Readdir dir (some names)] ∧
      loadAllImages w dir = finish w (loadFiles w dir names s0) := by
  unfold loadAllImages
  split
  · next s1 hg =>
    obtain ⟨v, hv, -, -⟩ := getDockerClient_ok w _ s1 hg
    rw [init_calls, List.nil_append] at hv
    dsimp only
    split
    · left
      show List.filterMap Event.entries (s1.calls ++ [Event.Open dir _]) = []
      rw [hv]
      rfl
    · next h1 =>
      have h1 : w.Open s1.calls dir = false := by simpa using h1
      rw [h1]
      split
      · left
        show List.filterMap Event.entries
          (s1.calls ++ [Event.Open dir false] ++ [Event.Readdir dir none]) = []
        rw [hv]
        rfl
      · next names hi =>
        right
        exact ⟨v, names, _, by rw [call_calls, defer_calls, call_calls, hv]; rfl, rfl⟩
  · next r hne =>
    left
    cases hr : getDockerClient w St.init with
    | mk s1 e =>
      have hne2 : e ≠ .ok := by
        rintro rfl
        exact hne s1 hr
      obtain ⟨rfl, pre, ev, hc, -, -, -, hl, -⟩ := getDockerClient_fatal w _ s1 e hr hne2
      show List.filterMap Event.entries s1.calls = []
      rw [hc, init_calls, List.nil_append]
      exact hl

theorem closes_entries (cs : List Event) (h : ∀ c ∈ cs, c.isClose = true) :
    cs.filterMap Event.entries = [] :=
  closes_proj _ (by intro e he; cases e <;> first | rfl | exact Bool.noConfusion he) cs h

theorem closes_importPath (cs : List Event) (h : ∀ c ∈ cs, c.isClose = true) :
    cs.filterMap Event.importPath = [] :=
  closes_proj _ (by intro e he; cases e <;> first | rfl | exact Bool.noConfusion he) cs h

/-- A run of load in which the directory read returns `names` and no call fails: the import calls it issues. -/
theorem load_master (w : World) (dir : Str) (names : List Str)
    (hlist : Event.Readdir dir (some names) ∈ (loadAllImages w dir).calls)
    (hok : Clean (loadAllImages w dir).calls) :
    (loadAllImages w dir).exit = .ok ∧
    (loadAllImages w dir).calls.filterMap Event.importPath = names.map (filePath dir) := by
  have hmem : names ∈ (loadAllImages w dir).calls.filterMap Event.entries :=
    List.mem_filterMap.mpr ⟨_, hlist, rfl⟩
  rcases loadAllImages_cases w dir with h | ⟨v, nms, s0, hs0c, h⟩
  · rw [h] at hmem
    simp at hmem
  · rw [h] at hmem hok ⊢
    obtain ⟨added, ha, hl, hcase⟩ := loadFiles_spec w dir nms s0
    cases hr : loadFiles w dir nms s0 with
    | mk s1 e =>
      rw [hr] at ha hcase
      simp only at ha hcase
      obtain ⟨cs, hf1, hf2, -, hf4, -⟩ := finish_spec w s1 e
      rw [hr, hf1, ha, hs0c] at hmem hok
      rw [hf1, ha, hs0c, hf4]
      have c1 := closes_entries cs hf2
      have c2 := closes_importPath cs hf2
      have hnm : names = nms := by
        rw [List.filterMap_append, List.filterMap_append, hl, c1] at hmem
        simpa [Event.entries] using hmem
      subst hnm
      rcases hcase with ⟨e1, -, e3, -⟩ | ⟨e1, p, ev, e2, e3, e4⟩
      · refine ⟨e1, ?_⟩
        rw [List.filterMap_append, List.filterMap_append, c2, e3, List.append_nil]
        rfl
      · exfalso
        have := hok ev (by simp [e2])
        rw [e4] at this
        exact Bool.noConfusion this

/-- The buffer printed by load is 4096 bytes long, whatever was read. -/
theorem readBuffer_length (body : Bytes) (n : Nat) : (readBuffer body n).length = 4096 := by
  unfold readBuffer
  simp only [List.length_append, List.length_replicate, List.length_take]
  omega

theorem unskipped_eq (image : Image) : unskipped image = !skipped image := by
  unfold unskipped skipped
  by_cases h1 : image.RepoTags = [] <;>
    by_cases h2 : (Split (image.RepoTags.headD []) ":".toList).length = 2 <;> simp [h1, h2]

/-! ## Stopping at the first failing call -/

theorem finish_ok_stops (w : World) (s : St) (h : Clean s.calls) :
    FailStop (finish w (s, .ok)) := by
  obtain ⟨cs, h1, h2, -, h4, -⟩ := finish_spec w s .ok
  refine Or.inl ⟨h4, ?_⟩
  rw [h1]
  intro e he hf
  rcases List.mem_append.mp he with he | he
  · rw [h e he] at hf
    exact Bool.noConfusion hf
  · exact h2 e he

theorem finish_fatal_stops (w : World) (s : St) (pre : List Event) (ev : Event)
    (hc : s.calls = pre ++ [ev]) (hpre : Clean pre) (hev : ev.failed = true) :
    FailStop (finish w (s, .fatal)) :=
  Or.inr ⟨fun h => Exit.noConfusion h, pre, ev, hc, hpre, hev⟩

theorem clean_append {a b : List Event} (ha : Clean a) (hb : Clean b) : Clean (a ++ b) := by
  intro e he
  rcases List.mem_append.mp he with he | he
  · exact ha e he
  · exact hb e he

/-- Every run of save stops at its first failing call. -/
theorem saveAllImages_stops (w : World) (dir : Str) : FailStop (saveAllImages w dir) := by
  unfold saveAllImages
  dsimp only
  split
  · next h1 =>
    refine finish_fatal_stops w _ [] (.MkdirAll dir true) ?_ (by simp [Clean]) rfl
    rw [call_calls, h1]
    rfl
  · next h1 =>
    have h1 : w.MkdirAll St.init.calls dir = false := by simpa using h1
    rw [h1]
    have hbase : Clean (St.init.call (Event.MkdirAll dir false)).calls := by
      intro e he
      simp at he
      rw [he]
      rfl
    split
    · next s1 hg =>
      obtain ⟨v, hv, -, -⟩ := getDockerClient_ok w _ s1 hg
      have hs1 : Clean s1.calls := by
        rw [hv]
        refine clean_append hbase ?_
        intro e he
        simp at he
        rcases he with rfl | rfl | rfl <;> rfl
      split
      · exact finish_fatal_stops w _ s1.calls (.ImageList none) rfl hs1 rfl
      · next images hi =>
        obtain ⟨added, ha, -, hcase⟩ := saveImages_spec w dir images
          (s1.call (.ImageList (some images)))
        have hs0 : Clean (s1.call (Event.ImageList (some images))).calls := by
          rw [call_calls]
          refine clean_append hs1 ?_
          intro e he
          simp at he
          rw [he]
          rfl
        cases hr : saveImages w dir images (s1.call (.ImageList (some images))) with
        | mk s2 e =>
          rw [hr] at ha hcase
          simp only at ha hcase
          rcases hcase with ⟨e1, e2, -⟩ | ⟨e1, p, ev, e2, e3, e4⟩
          · subst e1
            exact finish_ok_stops w s2 (by rw [ha]; exact clean_append hs0 e2)
          · subst e1
            refine finish_fatal_stops w s2 (_ ++ p) ev ?_ (clean_append hs0 e3) e4
            rw [ha, e2, List.append_assoc]
    · next r hne =>
      cases hr : getDockerClient w (St.init.call (Event.MkdirAll dir false)) with
      | mk s1 e =>
        have hne2 : e ≠ .ok := by
          rintro rfl
          exact hne s1 hr
        obtain ⟨rfl, pre, ev, hc, hpre, hev, -, -, -⟩ := getDockerClient_fatal w _ s1 e hr hne2
        refine finish_fatal_stops w s1 (_ ++ pre) ev ?_ (clean_append hbase hpre) hev
        rw [hc]

/-- Every run of load stops at its first failing call. -/
theorem loadAllImages_stops (w : World) (dir : Str) : FailStop (loadAllImages w dir) := by
  unfold loadAllImages
  split
  · next s1 hg =>
    obtain ⟨v, hv, -, -⟩ := getDockerClient_ok w _ s1 hg
    rw [init_calls, List.nil_append] at hv
    have hs1 : Clean s1.calls := by
      rw [hv]
      intro e he
      simp at he
      rcases he with rfl | rfl | rfl <;> rfl
    dsimp only
    split
    · next h1 =>
      refine finish_fatal_stops w _ s1.calls (.Open dir true) ?_ hs1 rfl
      rw [call_calls, h1]
    · next h1 =>
      have h1 : w.Open s1.calls dir = false := by simpa using h1
      rw [h1]
      have hs2 : Clean (s1.calls ++ [Event.Open dir false]) := by
        refine clean_append hs1 ?_
        intro e he
        simp at he
        rw [he]
        rfl
      split
      · exact finish_fatal_stops w _ (s1.calls ++ [Event.Open dir false])
          (.Readdir dir none) rfl hs2 rfl
      · next names hi =>
        obtain ⟨added, ha, -, hcase⟩ := loadFiles_spec w dir names
          (((s1.call (.Open dir false)).defer (.file dir)).call (.Readdir dir (some names)))
        have hs0 : Clean (((s1.call (.Open dir false)).defer (.file dir)).call
            (.Readdir dir (some names))).calls := by
          rw [call_calls, defer_calls, call_calls]
          refine clean_append hs2 ?_
          intro e he
          simp at he
          rw [he]
          rfl
        cases hr : loadFiles w dir names
            (((s1.call (.Open dir false)).defer (.file dir)).call
              (.Readdir dir (some names))) with
        | mk s2 e =>
          rw [hr] at ha hcase
          simp only at ha hcase
          rcases hcase with ⟨e1, e2, -⟩ | ⟨e1, p, ev, e2, e3, e4⟩
          · subst e1
            exact finish_ok_stops w s2 (by rw [ha]; exact clean_append hs0 e2)
          · subst e1
            refine finish_fatal_stops w s2 (_ ++ p) ev ?_ (clean_append hs0 e3) e4
            rw [ha, e2, List.append_assoc]
  · next r hne =>
    cases hr : getDockerClient w St.init with
    | mk s1 e =>
      have hne2 : e ≠ .ok := by
        rintro rfl
        exact hne s1 hr
      obtain ⟨rfl, pre, ev, hc, hpre, hev, -, -, -⟩ := getDockerClient_fatal w _ s1 e hr hne2
      refine finish_fatal_stops w s1 pre ev ?_ hpre hev
      rw [hc, init_calls, List.nil_append]

theorem replaceTags_deferred (w : World) (old new : Str) (tags : List Str) (s : St) :
    (replaceTags w old new tags s).1.deferred = s.deferred := by
  induction tags generalizing s with
  | nil => rfl
  | cons tag tags ih =>
    unfold replaceTags
    split
    · exact ih s
    · dsimp only
      split
      · rfl
      · rw [ih]
        rfl

theorem replaceImages_deferred (w : World) (old new : Str) (images : List Image) (s : St) :
    (replaceImages w old new images s).1.deferred = s.deferred := by
  induction images generalizing s with
  | nil => rfl
  | cons image images ih =>
    unfold replaceImages
    have h := replaceTags_deferred w old new image.RepoTags s
    split
    · next s1 hs =>
      rw [hs] at h
      rw [ih s1]
      exact h
    · exact h

theorem finish_panic_stops (w : World) (s : St) (pre : List Event) (ev : Event)
    (hd : s.deferred = []) (hc : s.calls = pre ++ [ev]) (hpre : Clean pre)
    (hev : ev.failed = true) : FailStop (finish w (s, .panic)) := by
  refine Or.inr ⟨fun h => Exit.noConfusion h, pre, ev, ?_, hpre, hev⟩
  show (runDeferred w s.deferred s).calls = pre ++ [ev]
  rw [hd]
  exact hc

/-- Every run of replace stops at its first failing call: `panic` finds no deferred call to run. -/
theorem replaceAllImages_stops (w : World) (old new : Str) :
    FailStop (replaceAllImages w old new) := by
  unfold replaceAllImages
  split
  · next s1 hg =>
    obtain ⟨v, hv, -, hd⟩ := getDockerClient_ok w _ s1 hg
    rw [init_calls, List.nil_append] at hv
    have hs1 : Clean s1.calls := by
      rw [hv]
      intro e he
      simp at he
      rcases he with rfl | rfl | rfl <;> rfl
    split
    · exact finish_fatal_stops w _ s1.calls (.ImageList none) rfl hs1 rfl
    · next images hi =>
      obtain ⟨added, ha, -, hcase⟩ := replaceImages_spec w old new images
        (s1.call (.ImageList (some images)))
      have hdef := replaceImages_deferred w old new images (s1.call (.ImageList (some images)))
      have hs0 : Clean (s1.call (Event.ImageList (some images))).calls := by
        rw [call_calls]
        refine clean_append hs1 ?_
        intro e he
        simp at he
        rw [he]
        rfl
      cases hr : replaceImages w old new images (s1.call (.ImageList (some images))) with
      | mk s2 e =>
        rw [hr] at ha hcase hdef
        simp only at ha hcase hdef
        rcases hcase with ⟨e1, e2, -⟩ | ⟨e1, p, ev, e2, e3, e4⟩
        · subst e1
          exact finish_ok_stops w s2 (by rw [ha]; exact clean_append hs0 e2)
        · subst e1
          refine finish_panic_stops w s2 (_ ++ p) ev ?_ ?_ (clean_append hs0 e3) e4
          · rw [hdef, call_deferred, hd]
            rfl
          · rw [ha, e2, List.append_assoc]
  · next r hne =>
    cases hr : getDockerClient w St.init with
    | mk s1 e =>
      have hne2 : e ≠ .ok := by
        rintro rfl
        exact hne s1 hr
      obtain ⟨rfl, pre, ev, hc, hpre, hev, -, -, -⟩ := getDockerClient_fatal w _ s1 e hr hne2
      refine finish_fatal_stops w s1 pre ev ?_ hpre hev
      rw [hc, init_calls, List.nil_append]

/-! ## The file name save derives -/

theorem archiveFilename_of_split (tag repo version : Str)
    (h : Split tag ":".toList = [repo, version]) :
    archiveFilename tag = some (repo.map (fun c => if c = '/' then '-' else c)
      ++ "-".toList ++ version ++ ".tar".toList) := by
  unfold archiveFilename
  rw [h, ← replaceAll_slash]
  rfl

theorem saveImage_created (w : World) (dir : Str) (image : Image) (s : St)
    (tag repo version : Str) (rest : List Str)
    (ht : image.RepoTags = tag :: rest)
    (hs : Split tag ":".toList = [repo, version]) :
    (saveImage w dir image s).1.calls.filterMap Event.createdPath
      = s.calls.filterMap Event.createdPath ++
        (if (w.ImageSave s.calls image.ID).isSome then
          [dir ++ "/".toList ++ (repo.map (fun c => if c = '/' then '-' else c)
            ++ "-".toList ++ version ++ ".tar".toList)]
        else []) := by
  have hs2 : Split tag [':'] = [repo, version] := hs
  have hr : ReplaceAll repo ['/'] ['-'] = repo.map (fun c => if c = '/' then '-' else c) :=
    replaceAll_slash repo
  cases h1 : w.ImageSave s.calls image.ID with
  | none => simp [saveImage, ht, hs2, h1, Event.createdPath]
  | some b =>
    simp only [saveImage, ht]
    simp [hs2, h1, hr]
    split
    · simp [Event.createdPath, List.filterMap_append]
    · split <;> simp [Event.createdPath, List.filterMap_append]

theorem saveImage_printed (w : World) (dir : Str) (image : Image) (s : St)
    (tag repo version : Str) (rest : List Str)
    (ht : image.RepoTags = tag :: rest)
    (hs : Split tag ":".toList = [repo, version])
    (hok : (saveImage w dir image s).2 = .ok) :
    (saveImage w dir image s).1.out = s.out ++
      [.text ("Image ".toList ++ repo.map (fun c => if c = '/' then '-' else c)
        ++ " saved as ".toList ++ (repo.map (fun c => if c = '/' then '-' else c)
            ++ "-".toList ++ version ++ ".tar".toList) ++ "\n".toList)] := by
  have hs2 : Split tag [':'] = [repo, version] := hs
  have hr : ReplaceAll repo ['/'] ['-'] = repo.map (fun c => if c = '/' then '-' else c) :=
    replaceAll_slash repo
  revert hok
  cases h1 : w.ImageSave s.calls image.ID with
  | none => simp [saveImage, ht, hs2, h1]
  | some b =>
    simp only [saveImage, ht]
    simp [hs2, h1, hr]
    split
    · simp
    · split <;> simp

theorem archivePath_of_split (dir : Str) (image : Image) (tag repo version : Str)
    (rest : List Str) (ht : image.RepoTags = tag :: rest)
    (hs : Split tag ":".toList = [repo, version]) :
    unskipped image = true ∧
    archivePath dir image = dir ++ "/".toList ++
      (repo.map (fun c => if c = '/' then '-' else c) ++ "-".toList ++ version
        ++ ".tar".toList) := by
  constructor
  · unfold unskipped
    rw [ht, decide_eq_true_eq]
    refine ⟨List.cons_ne_nil _ _, ?_⟩
    show (Split tag ":".toList).length = 2
    rw [hs]
    rfl
  · unfold archivePath
    rw [ht]
    show dir ++ "/".toList ++ (archiveFilename tag).getD [] = _
    rw [archiveFilename_of_split tag repo version hs]
    rfl

/-! ## The claims -/

/-- C1: for an image whose first repository tag splits at the colon into
exactly the two parts `repo` and `version`, the file name save derives is
`repo` with every slash replaced by a dash, then a dash, the version and
`.tar`.  The pass of the loop for the image creates, once the export is
granted, exactly the file of that name in the target directory, and when it
succeeds it reports that name; in a run of save in which the engine lists the
image and no call fails that file is among those created; and in a run on the
tag `myorg/app:1.2` the file created and reported is `myorg-app-1.2.tar`. -/
theorem save_derives_filename (w : World) (dir : Str) (image : Image) (s : St)
    (tag repo version : Str) (rest : List Str)
    (ht : image.RepoTags = tag :: rest)
    (hs : Split tag ":".toList = [repo, version]) :
    (saveImage w dir image s).1.calls.filterMap Event.createdPath
      = s.calls.filterMap Event.createdPath ++
        (if (w.ImageSave s.calls image.ID).isSome then
          [dir ++ "/".toList ++ (repo.map (fun c => if c = '/' then '-' else c)
            ++ "-".toList ++ version ++ ".tar".toList)]
        else []) ∧
    ((saveImage w dir image s).2 = .ok →
      (saveImage w dir image s).1.out = s.out ++
        [.text ("Image ".toList ++ repo.map (fun c => if c = '/' then '-' else c)
          ++ " saved as ".toList ++ (repo.map (fun c => if c = '/' then '-' else c)
              ++ "-".toList ++ version ++ ".tar".toList) ++ "\n".toList)]) ∧
    (∀ images, image ∈ images →
      Event.ImageList (some images) ∈ (saveAllImages w dir).calls →
      Clean (saveAllImages w dir).calls →
      dir ++ "/".toList ++ (repo.map (fun c => if c = '/' then '-' else c)
          ++ "-".toList ++ version ++ ".tar".toList)
        ∈ (saveAllImages w dir).calls.filterMap Event.createdPath) ∧
    (saveAllImages (calm [appImage] [] [1, 2, 3]) "images-save".toList).calls.filterMap
        Event.createdPath = ["images-save/myorg-app-1.2.tar".toList] ∧
    (saveAllImages (calm [appImage] [] [1, 2, 3]) "images-save".toList).out
      = [.text "Image myorg-app saved as myorg-app-1.2.tar\n".toList] := by
  refine ⟨saveImage_created w dir image s tag repo version rest ht hs,
    saveImage_printed w dir image s tag repo version rest ht hs, ?_, by decide, by decide⟩
  intro images hmem hlist hok
  obtain ⟨hu, hp⟩ := archivePath_of_split dir image tag repo version rest ht hs
  rw [(save_master w dir images hlist hok).2.2.1, ← hp]
  exact List.mem_map.mpr ⟨image, List.mem_filter.mpr ⟨hmem, hu⟩, rfl⟩

theorem save_derives_filename_witness :
    appImage.RepoTags = "myorg/app:1.2".toList :: ["myorg/app:latest".toList] ∧
    Split "myorg/app:1.2".toList ":".toList = ["myorg/app".toList, "1.2".toList] ∧
    (saveImage (calm [appImage] [] [1, 2, 3]) "images-save".toList appImage
        St.init).1.calls.filterMap Event.createdPath
      = ["images-save/myorg-app-1.2.tar".toList] :=
  ⟨by decide, by decide,
    (save_derives_filename (calm [appImage] [] [1, 2, 3]) "images-save".toList appImage St.init
      "myorg/app:1.2".toList "myorg/app".toList "1.2".toList ["myorg/app:latest".toList]
      (by decide) (by decide)).1.trans (by decide)⟩

/-- C2: in a run of save in which the engine lists `images` and no call fails,
the export requests are, in order, those for the images that are not skipped,
and the files created are theirs, where an image is skipped exactly when it has
no repository tag or its first tag does not split at the colon into two parts;
the images after a skipped one are still processed. -/
theorem save_skips_exactly (w : World) (dir : Str) (images : List Image)
    (hlist : Event.ImageList (some images) ∈ (saveAllImages w dir).calls)
    (hok : Clean (saveAllImages w dir).calls) :
    (saveAllImages w dir).calls.filterMap Event.exportID
      = (images.filter (fun image => !skipped image)).map (·.ID) ∧
    (saveAllImages w dir).calls.filterMap Event.createdPath
      = (images.filter (fun image => !skipped image)).map (archivePath dir) := by
  have hf : images.filter (fun image => !skipped image) = images.filter unskipped :=
    List.filter_congr (fun image _ => (unskipped_eq image).symm)
  obtain ⟨-, h2, h3, -, -⟩ := save_master w dir images hlist hok
  rw [hf]
  exact ⟨h2, h3⟩

theorem save_skips_exactly_witness :
    Event.ImageList (some mixedImages)
      ∈ (saveAllImages (calm mixedImages [] [1, 2, 3]) "out".toList).calls ∧
    Clean (saveAllImages (calm mixedImages [] [1, 2, 3]) "out".toList).calls ∧
    (saveAllImages (calm mixedImages [] [1, 2, 3]) "out".toList).calls.filterMap Event.exportID
      = (mixedImages.filter (fun image => !skipped image)).map (·.ID) ∧
    (saveAllImages (calm mixedImages [] [1, 2, 3]) "out".toList).calls.filterMap Event.createdPath
      = (mixedImages.filter (fun image => !skipped image)).map (archivePath "out".toList) :=
  ⟨by decide, by unfold Clean; decide,
    save_skips_exactly (calm mixedImages [] [1, 2, 3]) "out".toList mixedImages (by decide)
      (by unfold Clean; decide)⟩

/-- C4: in a run of load in which the directory read returns `names` and no
call fails, the import calls are, in order, one for every entry of the listing,
each on the path of the directory, a slash and the name of the entry; no entry
is left out. -/
theorem load_imports_every_entry (w : World) (dir : Str) (names : List Str)
    (hlist : Event.Readdir dir (some names) ∈ (loadAllImages w dir).calls)
    (hok : Clean (loadAllImages w dir).calls) :
    (loadAllImages w dir).calls.filterMap Event.importPath
      = names.map (fun name => dir ++ "/".toList ++ name) :=
  (load_master w dir names hlist hok).2

theorem load_imports_every_entry_witness :
    Event.Readdir "in".toList (some ["b.tar".toList, "notes.txt".toList, "a.tar".toList])
      ∈ (loadAllImages (calm [] ["b.tar".toList, "notes.txt".toList, "a.tar".toList] [111, 107])
          "in".toList).calls ∧
    Clean (loadAllImages (calm [] ["b.tar".toList, "notes.txt".toList, "a.tar".toList] [111, 107])
          "in".toList).calls ∧
    (loadAllImages (calm [] ["b.tar".toList, "notes.txt".toList, "a.tar".toList] [111, 107])
          "in".toList).calls.filterMap Event.importPath
      = ["in/b.tar".toList, "in/notes.txt".toList, "in/a.tar".toList] :=
  ⟨by decide, by unfold Clean; decide,
    load_imports_every_entry (calm [] ["b.tar".toList, "notes.txt".toList, "a.tar".toList]
      [111, 107]) "in".toList ["b.tar".toList, "notes.txt".toList, "a.tar".toList] (by decide)
      (by unfold Clean; decide)⟩

/-- C5: a failing call does not end a run of delete.  In the world
`removeFails` the engine refuses to remove the tag `old.io/app:1`; the run
goes on to remove the tag `old.io/db:2` of the next image and returns
normally, so it did not stop at its first failing call. -/
theorem delete_continues_after_error :
    (deleteAllImages removeFails "old.io".toList).calls = clientCalls ++
      [.ImageList (some registryImages), .ImageRemove "old.io/app:1".toList true,
        .ImageRemove "old.io/db:2".toList false] ∧
    (Event.ImageRemove "old.io/app:1".toList true).failed = true ∧
    (deleteAllImages removeFails "old.io".toList).exit = .ok ∧
    ¬ FailStop (deleteAllImages removeFails "old.io".toList) := by
  refine ⟨by decide, by decide, by decide, ?_⟩
  rintro (⟨-, h⟩ | ⟨h, -⟩)
  · exact absurd (h (.ImageRemove "old.io/app:1".toList true) (by decide) rfl) (by decide)
  · exact h (by decide)

/-- C6, as stated, fails: the only image of `portImages` has a repository tag,
`localhost:5000/app:1`, and in a run of save in which no call fails no export
is requested for it and nothing is written. -/
theorem save_tagged_image_skipped :
    Event.ImageList (some portImages)
      ∈ (saveAllImages (calm portImages [] [1, 2, 3]) "out".toList).calls ∧
    Clean (saveAllImages (calm portImages [] [1, 2, 3]) "out".toList).calls ∧
    (∀ image ∈ portImages, image.RepoTags ≠ []) ∧
    (saveAllImages (calm portImages [] [1, 2, 3]) "out".toList).calls.filterMap Event.exportID = [] ∧
    (saveAllImages (calm portImages [] [1, 2, 3]) "out".toList).calls.filterMap Event.written = [] :=
  ⟨by decide, by unfold Clean; decide, by decide, by decide, by decide⟩

/-- C6, amended: in a run of save in which the engine lists `images` and no
call fails, an export is requested by ID for each image that has a repository
tag whose first one splits at the colon into exactly two parts, in order, each
request returns a stream, and the copies write these streams, unchanged and in
order, to the derived paths of these images. -/
theorem save_exports_then_writes (w : World) (dir : Str) (images : List Image)
    (hlist : Event.ImageList (some images) ∈ (saveAllImages w dir).calls)
    (hok : Clean (saveAllImages w dir).calls) :
    (saveAllImages w dir).calls.filterMap Event.exportID
      = (images.filter unskipped).map (·.ID) ∧
    ((saveAllImages w dir).calls.filterMap Event.exportStream).length
      = (images.filter unskipped).length ∧
    (saveAllImages w dir).calls.filterMap Event.written
      = List.zip ((images.filter unskipped).map (archivePath dir))
          ((saveAllImages w dir).calls.filterMap Event.exportStream) := by
  obtain ⟨-, h2, -, h4, h5⟩ := save_master w dir images hlist hok
  exact ⟨h2, h5, h4⟩

theorem save_exports_then_writes_witness :
    Event.ImageList (some mixedImages)
      ∈ (saveAllImages (calm mixedImages [] [7, 8, 9]) "images-save".toList).calls ∧
    Clean (saveAllImages (calm mixedImages [] [7, 8, 9]) "images-save".toList).calls ∧
    (saveAllImages (calm mixedImages [] [7, 8, 9]) "images-save".toList).calls.filterMap
        Event.written
      = [("images-save/myorg-app-1.2.tar".toList, [7, 8, 9]),
          ("images-save/redis-7.tar".toList, [7, 8, 9])] :=
  ⟨by decide, by unfold Clean; decide,
    ((save_exports_then_writes (calm mixedImages [] [7, 8, 9]) "images-save".toList mixedImages
      (by decide) (by unfold Clean; decide)).2.2).trans (by decide)⟩

/-- C8: load prints the whole buffer of 4096 bytes, not the bytes of the
response.  For the file `a.tar`, to whose import the engine answers with the
two bytes of `ok`, the text printed is the buffer and a line feed; the buffer
is 4096 bytes long, the two bytes of the response followed by 4094 zero bytes. -/
theorem load_prints_whole_buffer :
    (loadAllImages (calm [] ["a.tar".toList] [111, 107]) "in".toList).calls = clientCalls ++
      [.Open "in".toList false, .Readdir "in".toList (some ["a.tar".toList]),
        .Open "in/a.tar".toList false, .ImageLoad "in/a.tar".toList (some [111, 107]),
        .Read "in/a.tar".toList 2 ReadStatus.EOF, .CloseBody "in/a.tar".toList false,
        .Close "in/a.tar".toList false, .Close "in".toList false] ∧
    (loadAllImages (calm [] ["a.tar".toList] [111, 107]) "in".toList).out
      = [.raw (readBuffer [111, 107] 2 ++ [10])] ∧
    readBuffer [111, 107] 2 = [111, 107] ++ List.replicate 4094 0 ∧
    (readBuffer [111, 107] 2).length = 4096 ∧
    readBuffer [111, 107] 2 ≠ [111, 107] := by
  refine ⟨by decide, rfl, rfl, readBuffer_length _ _, ?_⟩
  intro h
  have hlen := readBuffer_length [111, 107] 2
  rw [h] at hlen
  exact absurd hlen (by decide)

theorem filter_contains (old : Str) (tags : List Str) :
    tags.filter (fun t => Contains t old) = tags.filter (fun t => decide (old <:+: t)) := by
  apply List.filter_congr
  intro t _
  rw [Bool.eq_iff_iff, contains_iff]
  simp

/-- C3: a run of replace issues no remove and no push call, and every
tag-creation call it issues is for a tag that contains the old registry; when
the engine lists `images` and no call fails, the tag-creation calls are, in
listing order, one for every repository tag that contains the old registry as
a substring, and none for any other tag. -/
theorem replace_tags_matching_only (w : World) (old new : Str) (images : List Image) :
    (∀ e ∈ (replaceAllImages w old new).calls, e.isRemove = false ∧ e.isPush = false ∧
      ∀ source target err, e = Event.ImageTag source target err → old <:+: source) ∧
    (Event.ImageList (some images) ∈ (replaceAllImages w old new).calls →
      Clean (replaceAllImages w old new).calls →
      ((replaceAllImages w old new).calls.filterMap Event.tagCall).map Prod.fst
        = (images.flatMap (·.RepoTags)).filter (fun t => decide (old <:+: t))) := by
  constructor
  · intro e he
    rcases replace_events w old new e he with h | h | ⟨t, err, rfl, ht⟩
    · cases e <;> first
        | exact Bool.noConfusion h
        | exact ⟨rfl, rfl, fun _ _ _ h2 => Event.noConfusion h2⟩
    · cases e <;> first
        | exact Bool.noConfusion h
        | exact ⟨rfl, rfl, fun _ _ _ h2 => Event.noConfusion h2⟩
    · refine ⟨rfl, rfl, ?_⟩
      intro source target err2 h2
      injection h2 with h3 _ _
      rw [← h3]
      exact (contains_iff t old).mp ht
  · intro hlist hok
    rw [(replace_master w old new images hlist hok).2, List.map_map, ← filter_contains]
    exact List.map_id _

theorem replace_tags_matching_only_witness :
    Event.ImageList (some registryImages)
      ∈ (replaceAllImages (calm registryImages [] []) "old.io".toList "new.io".toList).calls ∧
    Clean (replaceAllImages (calm registryImages [] []) "old.io".toList "new.io".toList).calls ∧
    ((replaceAllImages (calm registryImages [] []) "old.io".toList
        "new.io".toList).calls.filterMap Event.tagCall).map Prod.fst
      = (registryImages.flatMap (·.RepoTags)).filter
          (fun t => decide ("old.io".toList <:+: t)) :=
  ⟨by decide, by unfold Clean; decide,
    (replace_tags_matching_only (calm registryImages [] []) "old.io".toList "new.io".toList
      registryImages).2 (by decide) (by unfold Clean; decide)⟩

/-- C7, as stated, fails: the leading path segment of the tag `reg/reg-tools:1`
is the old registry `reg`, and replace tags the image as `new/new-tools:1`,
which is not the new registry `new` followed by the remainder `/reg-tools:1`. -/
theorem replace_rewrites_repository :
    (replaceAllImages (calm regImages [] []) "reg".toList "new".toList).calls.filterMap
        Event.tagCall
      = [("reg/reg-tools:1".toList, "new/new-tools:1".toList)] ∧
    "reg/reg-tools:1".toList = "reg".toList ++ "/reg-tools:1".toList ∧
    "new/new-tools:1".toList ≠ "new".toList ++ "/reg-tools:1".toList := by
  decide

/-- C7, amended: the target of every tag-creation call of replace is the
source with every occurrence of the old registry replaced by the new one; when
the source is the old registry, not empty, followed by a remainder in which the
old registry does not occur, the target is the new registry followed by that
remainder. -/
theorem replace_target (w : World) (old new source target : Str) (err : Bool)
    (h : Event.ImageTag source target err ∈ (replaceAllImages w old new).calls) :
    target = Replace source old new ∧
    ∀ rest, source = old ++ rest → old ≠ [] → ¬ old <:+: rest → target = new ++ rest := by
  have ht : target = Replace source old new := by
    rcases replace_events w old new _ h with h1 | h1 | ⟨t, err2, h2, -⟩
    · exact Bool.noConfusion h1
    · exact Bool.noConfusion h1
    · injection h2 with h3 h4 _
      rw [h4, h3]
  refine ⟨ht, ?_⟩
  intro rest hs hne hno
  rw [ht, hs]
  exact replace_leading old new rest hne hno

theorem replace_target_witness :
    Event.ImageTag "old.io/app:1".toList "new.io/app:1".toList false
      ∈ (replaceAllImages (calm registryImages [] []) "old.io".toList "new.io".toList).calls ∧
    "new.io/app:1".toList = "new.io".toList ++ "/app:1".toList :=
  ⟨by decide,
    (replace_target (calm registryImages [] []) "old.io".toList "new.io".toList
      "old.io/app:1".toList "new.io/app:1".toList false (by decide)).2 "/app:1".toList
      (by decide) (by decide)
      (fun h => absurd ((contains_iff _ _).mpr h) (by decide))⟩

/-- C10: in a run of delete in which the engine lists `images`, the remove
calls are, in listing order, one for every repository tag that contains the old
registry as a substring, and none for any other tag; they are the tags for
which a run of replace on the same images and with the same old registry, in
which no call fails, issues its tag-creation calls. -/
theorem delete_removes_matching (w : World) (old : Str) (images : List Image)
    (hlist : Event.ImageList (some images) ∈ (deleteAllImages w old).calls) :
    (deleteAllImages w old).calls.filterMap Event.removedTag
      = (images.flatMap (·.RepoTags)).filter (fun t => decide (old <:+: t)) ∧
    ∀ (w2 : World) (new : Str),
      Event.ImageList (some images) ∈ (replaceAllImages w2 old new).calls →
      Clean (replaceAllImages w2 old new).calls →
      (deleteAllImages w old).calls.filterMap Event.removedTag
        = ((replaceAllImages w2 old new).calls.filterMap Event.tagCall).map Prod.fst := by
  have h1 := (delete_master w old images hlist).2
  refine ⟨by rw [h1, filter_contains], ?_⟩
  intro w2 new hl hok
  rw [h1, (replace_master w2 old new images hl hok).2, List.map_map]
  exact (List.map_id _).symm

theorem delete_removes_matching_witness :
    Event.ImageList (some registryImages)
      ∈ (deleteAllImages (calm registryImages [] []) "old.io".toList).calls ∧
    (deleteAllImages (calm registryImages [] []) "old.io".toList).calls.filterMap
        Event.removedTag
      = ["old.io/app:1".toList, "old.io/db:2".toList] ∧
    (deleteAllImages (calm registryImages [] []) "old.io".toList).calls.filterMap
        Event.removedTag
      = ((replaceAllImages (calm registryImages [] []) "old.io".toList
          "new.io".toList).calls.filterMap Event.tagCall).map Prod.fst :=
  ⟨by decide,
    (delete_removes_matching (calm registryImages [] []) "old.io".toList registryImages
      (by decide)).1.trans (by decide),
    (delete_removes_matching (calm registryImages [] []) "old.io".toList registryImages
      (by decide)).2 (calm registryImages [] []) "new.io".toList (by decide)
      (by unfold Clean; decide)⟩

theorem append_cons_first (c : Char) (a b x y : Str) (ha : c ∉ a) (hb : c ∉ b)
    (h : a ++ c :: x = b ++ c :: y) : a = b ∧ x = y := by
  induction a generalizing b with
  | nil =>
    cases b with
    | nil => exact ⟨rfl, by simpa using h⟩
    | cons d b =>
      exfalso
      simp at h
      exact hb (by simp [h.1])
  | cons d a ih =>
    cases b with
    | nil =>
      exfalso
      simp at h
      exact ha (by simp [h.1])
    | cons e b =>
      simp only [List.cons_append, List.cons.injEq] at h
      obtain ⟨h1, h2⟩ := ih b (fun hm => ha (List.mem_cons_of_mem _ hm))
        (fun hm => hb (List.mem_cons_of_mem _ hm)) h.2
      exact ⟨by rw [h.1, h1], h2⟩

theorem append_cons_last (c : Char) (a b x y : Str) (hx : c ∉ x) (hy : c ∉ y)
    (h : a ++ c :: x = b ++ c :: y) : a = b ∧ x = y := by
  have hr : x.reverse ++ c :: a.reverse = y.reverse ++ c :: b.reverse := by
    have := congrArg List.reverse h
    simpa using this
  obtain ⟨h1, h2⟩ := append_cons_first c x.reverse y.reverse a.reverse b.reverse
    (by simpa using hx) (by simpa using hy) hr
  exact ⟨List.reverse_injective h2, List.reverse_injective h1⟩

theorem slash_map_inj (s t : Str) (hs : '-' ∉ s) (ht : '-' ∉ t)
    (h : s.map (fun c => if c = '/' then '-' else c)
      = t.map (fun c => if c = '/' then '-' else c)) : s = t := by
  induction s generalizing t with
  | nil =>
    cases t with
    | nil => rfl
    | cons e t => simp at h
  | cons d s ih =>
    cases t with
    | nil => simp at h
    | cons e t =>
      simp only [List.map_cons, List.cons.injEq] at h
      have hd : d ≠ '-' := fun hd => hs (by simp [hd])
      have he : e ≠ '-' := fun he => ht (by simp [he])
      have hde : d = e := by
        have h1 := h.1
        by_cases h2 : d = '/' <;> by_cases h3 : e = '/'
        · rw [h2, h3]
        · rw [if_pos h2, if_neg h3] at h1
          exact absurd h1.symm he
        · rw [if_neg h2, if_pos h3] at h1
          exact absurd h1 hd
        · rw [if_neg h2, if_neg h3] at h1
          exact h1
      rw [hde, ih t (fun hm => hs (List.mem_cons_of_mem _ hm))
        (fun hm => ht (List.mem_cons_of_mem _ hm)) h.2]

/-- The derived file name determines the tag, among the tags of two parts without a dash. -/
theorem archiveFilename_inj (t1 t2 : Str)
    (h1 : (Split t1 ":".toList).length = 2) (h2 : (Split t2 ":".toList).length = 2)
    (n1 : '-' ∉ t1) (n2 : '-' ∉ t2)
    (h : (archiveFilename t1).getD [] = (archiveFilename t2).getD []) : t1 = t2 := by
  obtain ⟨a1, b1, s1⟩ := List.length_eq_two.mp h1
  obtain ⟨a2, b2, s2⟩ := List.length_eq_two.mp h2
  have e1 := split_two t1 a1 b1 s1
  have e2 := split_two t2 a2 b2 s2
  rw [archiveFilename_of_split t1 a1 b1 s1, archiveFilename_of_split t2 a2 b2 s2] at h
  have h3 : a1.map (fun c => if c = '/' then '-' else c) ++ '-' :: (b1 ++ ".tar".toList)
      = a2.map (fun c => if c = '/' then '-' else c) ++ '-' :: (b2 ++ ".tar".toList) := by
    simpa using h
  have m1 : '-' ∉ a1 ∧ '-' ∉ b1 := by
    rw [e1] at n1
    simpa [not_or] using n1
  have m2 : '-' ∉ a2 ∧ '-' ∉ b2 := by
    rw [e2] at n2
    simpa [not_or] using n2
  obtain ⟨h4, h5⟩ := append_cons_last '-' _ _ _ _
    (by simpa using m1.2) (by simpa using m2.2) h3
  have h6 : b1 = b2 := List.append_cancel_right h5
  have h7 : a1 = a2 := slash_map_inj a1 a2 m1.1 m2.1 h4
  rw [e1, e2, h6, h7]

theorem archivePath_nodup (dir : Str) (l : List Image)
    (hu : ∀ image ∈ l, unskipped image = true)
    (hnd : (l.map (fun image => image.RepoTags.headD [])).Nodup)
    (hdash : ∀ image ∈ l, '-' ∉ image.RepoTags.headD []) :
    (l.map (archivePath dir)).Nodup := by
  have hmap : l.map (archivePath dir)
      = (l.map (fun image => image.RepoTags.headD [])).map
          (fun t => dir ++ "/".toList ++ (archiveFilename t).getD []) := by
    rw [List.map_map]
    rfl
  rw [hmap]
  refine List.Nodup.map_on ?_ hnd
  intro x hx y hy hxy
  obtain ⟨i, hi, rfl⟩ := List.mem_map.mp hx
  obtain ⟨j, hj, rfl⟩ := List.mem_map.mp hy
  have ui := hu i hi
  have uj := hu j hj
  unfold unskipped at ui uj
  rw [decide_eq_true_eq] at ui uj
  exact archiveFilename_inj _ _ ui.2 uj.2 (hdash i hi) (hdash j hj)
    (List.append_cancel_left hxy)

/-- C9, as stated, fails: both images of `clashImages` are saved, the first
tags being `a/b:1` and `a-b:1`, and in a run of save in which no call fails
both are written to the path `out/a-b-1.tar`, the second over the first. -/
theorem save_paths_clash :
    Event.ImageList (some clashImages)
      ∈ (saveAllImages (calm clashImages [] [1, 2, 3]) "out".toList).calls ∧
    Clean (saveAllImages (calm clashImages [] [1, 2, 3]) "out".toList).calls ∧
    clashImages.filter unskipped = clashImages ∧
    (saveAllImages (calm clashImages [] [1, 2, 3]) "out".toList).calls.filterMap
        Event.createdPath
      = ["out/a-b-1.tar".toList, "out/a-b-1.tar".toList] ∧
    ¬ ((saveAllImages (calm clashImages [] [1, 2, 3]) "out".toList).calls.filterMap
        Event.createdPath).Nodup :=
  ⟨by decide, by unfold Clean; decide, by decide, by decide, by decide⟩

/-- C9, amended: in a run of save in which the engine lists `images` and no
call fails, one file is created for each image that is not skipped, so the
number of files created is the number of images saved; the paths of these files
are pairwise distinct when the first tags of the images saved are pairwise
distinct and contain no dash. -/
theorem save_one_file_per_image (w : World) (dir : Str) (images : List Image)
    (hlist : Event.ImageList (some images) ∈ (saveAllImages w dir).calls)
    (hok : Clean (saveAllImages w dir).calls) :
    ((saveAllImages w dir).calls.filterMap Event.createdPath).length
      = (images.filter unskipped).length ∧
    (((images.filter unskipped).map (fun image => image.RepoTags.headD [])).Nodup →
      (∀ image ∈ images.filter unskipped, '-' ∉ image.RepoTags.headD []) →
      ((saveAllImages w dir).calls.filterMap Event.createdPath).Nodup) := by
  obtain ⟨-, -, h3, -, -⟩ := save_master w dir images hlist hok
  rw [h3]
  refine ⟨List.length_map _ _, ?_⟩
  intro hnd hdash
  exact archivePath_nodup dir _ (fun image hi => (List.mem_filter.mp hi).2) hnd hdash

theorem save_one_file_per_image_witness :
    Event.ImageList (some mixedImages)
      ∈ (saveAllImages (calm mixedImages [] [4, 5]) "out".toList).calls ∧
    Clean (saveAllImages (calm mixedImages [] [4, 5]) "out".toList).calls ∧
    ((saveAllImages (calm mixedImages [] [4, 5]) "out".toList).calls.filterMap
        Event.createdPath).length = 2 ∧
    ((saveAllImages (calm mixedImages [] [4, 5]) "out".toList).calls.filterMap
        Event.createdPath).Nodup :=
  ⟨by decide, by unfold Clean; decide,
    (save_one_file_per_image (calm mixedImages [] [4, 5]) "out".toList mixedImages
      (by decide) (by unfold Clean; decide)).1.trans (by decide),
    (save_one_file_per_image (calm mixedImages [] [4, 5]) "out".toList mixedImages
      (by decide) (by unfold Clean; decide)).2 (by decide) (by decide)⟩

end DockerTools
